import Mathlib

/-!
Verification of the delta token-sequence compression SDK.

Tokens are unsigned 32-bit integers; we embed them as natural numbers
(all arithmetic in the translated code stays below 2^32, and no
operation in the translated fragments can overflow, so no modular
reduction is needed).  Token sequences are Lean lists.  The JavaScript
Map of meta-token to definition is embedded as an association list in
insertion order, with Map.set semantics (update in place, else append).
-/

namespace Delta

/-- A dictionary map: meta-token to definition, in insertion order
(association-list embedding of the JavaScript Map built by the parsers). -/
abbrev DictMap := List (Nat × List Nat)

/-- JavaScript Map.set: if the key is present, update the value in place
(keeping the original insertion position); otherwise append the binding. -/
def mapSet (m : DictMap) (k : Nat) (v : List Nat) : DictMap :=
  if m.any (fun e => e.1 = k) then
    m.map (fun e => if e.1 = k then (k, v) else e)
  else
    m ++ [(k, v)]

/-- JavaScript Array.prototype.indexOf specialised to token lists: the index
of the first occurrence of a value, if any. -/
def findTokenIdx (x : Nat) : List Nat → Option Nat
  | [] => none
  | t :: rest => if t = x then some 0 else (findTokenIdx x rest).map (· + 1)

/-- Drop everything up to and including the first occurrence of a token;
the empty list when the token does not occur.  This is the suffix left by
the scan loops "while (pos < length and tokens[pos] is not dictStart) pos++;
pos++" in the SDK dictionary parsers. -/
def dropThroughToken (x : Nat) : List Nat → List Nat
  | [] => []
  | t :: rest => if t = x then rest else dropThroughToken x rest

theorem findTokenIdx_eq_none (x : Nat) (l : List Nat) (h : ∀ t ∈ l, t ≠ x) :
    findTokenIdx x l = none := by
  induction l with
  | nil => rfl
  | cons t rest ih =>
    have hx : t ≠ x := h t (List.mem_cons_self t rest)
    simp only [findTokenIdx, if_neg hx]
    rw [ih (fun u hu => h u (List.mem_cons_of_mem t hu))]
    rfl

theorem findTokenIdx_cons_self (x : Nat) (l : List Nat) :
    findTokenIdx x (x :: l) = some 0 := by
  simp [findTokenIdx]

/-- The first occurrence of x in l ++ x :: r is at index l.length when
x does not occur in l. -/
theorem findTokenIdx_append (x : Nat) (l r : List Nat) (h : ∀ t ∈ l, t ≠ x) :
    findTokenIdx x (l ++ x :: r) = some l.length := by
  induction l with
  | nil => simp [findTokenIdx]
  | cons t rest ih =>
    have hx : t ≠ x := h t (List.mem_cons_self t rest)
    simp only [List.cons_append, findTokenIdx, if_neg hx, List.append_eq]
    rw [ih (fun u hu => h u (List.mem_cons_of_mem t hu))]
    rfl

theorem dropThroughToken_eq (x : Nat) (l : List Nat) :
    dropThroughToken x l =
      (match findTokenIdx x l with
       | none => []
       | some i => l.drop (i + 1)) := by
  induction l with
  | nil => rfl
  | cons t rest ih =>
    by_cases hx : t = x
    · subst hx
      simp [dropThroughToken, findTokenIdx]
    · simp only [dropThroughToken, if_neg hx, findTokenIdx, ih]
      cases findTokenIdx x rest with
      | none => rfl
      | some i => rfl

/-! ## Configuration (packages/sdk/src/config.ts)

Modelled from the spec: the configuration module itself is not among the
provided sources, only its tests (tests/config.test.ts) and its API
documentation, which records the DEFAULT_CONFIG literal and that
mergeConfig fills every omitted option with the default. -/

/-- The four selection strategies of the configuration surface. -/
inductive SelectionMode where
  | greedy
  | optimal
  | beam
  | ilp
deriving DecidableEq

/-- User-facing configuration: every option may be omitted. -/
structure CompressionConfig where
  minSubsequenceLength : Option Nat
  maxSubsequenceLength : Option Nat
  selectionMode : Option SelectionMode
  beamWidth : Option Nat
  hierarchicalEnabled : Option Bool
  hierarchicalMaxDepth : Option Nat
  streamingThreshold : Option Nat
  maxMemoryMb : Option Nat
  verify : Option Bool
  dictStartToken : Option Nat
  dictEndToken : Option Nat
  nextMetaToken : Option Nat
deriving DecidableEq

/-- A fully resolved configuration (Required version of CompressionConfig). -/
structure ResolvedConfig where
  minSubsequenceLength : Nat
  maxSubsequenceLength : Nat
  selectionMode : SelectionMode
  beamWidth : Nat
  hierarchicalEnabled : Bool
  hierarchicalMaxDepth : Nat
  streamingThreshold : Nat
  maxMemoryMb : Nat
  verify : Bool
  dictStartToken : Nat
  dictEndToken : Nat
  nextMetaToken : Nat
deriving DecidableEq

/-- Modelled from the spec: the DEFAULT_CONFIG constant documented in the
API reference and exercised by tests/config.test.ts. -/
def DEFAULT_CONFIG : ResolvedConfig :=
  ⟨2, 8, SelectionMode.greedy, 8, true, 3, 50000, 256, false,
   0xFFFFFFF0, 0xFFFFFFF1, 0xFFFF0000⟩

/-- Modelled from the spec: mergeConfig resolves a possibly-absent user
configuration against DEFAULT_CONFIG, using the default for every option
the caller omits. -/
def mergeConfig (config : Option CompressionConfig) : ResolvedConfig :=
  match config with
  | none => DEFAULT_CONFIG
  | some c =>
    ⟨c.minSubsequenceLength.getD DEFAULT_CONFIG.minSubsequenceLength,
     c.maxSubsequenceLength.getD DEFAULT_CONFIG.maxSubsequenceLength,
     c.selectionMode.getD DEFAULT_CONFIG.selectionMode,
     c.beamWidth.getD DEFAULT_CONFIG.beamWidth,
     c.hierarchicalEnabled.getD DEFAULT_CONFIG.hierarchicalEnabled,
     c.hierarchicalMaxDepth.getD DEFAULT_CONFIG.hierarchicalMaxDepth,
     c.streamingThreshold.getD DEFAULT_CONFIG.streamingThreshold,
     c.maxMemoryMb.getD DEFAULT_CONFIG.maxMemoryMb,
     c.verify.getD DEFAULT_CONFIG.verify,
     c.dictStartToken.getD DEFAULT_CONFIG.dictStartToken,
     c.dictEndToken.getD DEFAULT_CONFIG.dictEndToken,
     c.nextMetaToken.getD DEFAULT_CONFIG.nextMetaToken⟩

/-- Decompression configuration (both options may be omitted), from
src/packages/sdk/src (the DecompressionConfig type used by the loader
helpers). -/
structure DecompressionConfig where
  dictStartToken : Option Nat
  dictEndToken : Option Nat
deriving DecidableEq

/-- normalizeTokens (packages/sdk/src/types.ts, exercised by
tests/types.test.ts): converts the input to a Uint32Array.  On token
sequences that are already valid u32 values the conversion preserves every
element, so on our Nat-list embedding it is the identity. -/
def normalizeTokens (tokens : List Nat) : List Nat := tokens

/-! ## SDK dictionary parsers

The entry-parsing loop below is character-for-character identical in its
three occurrences in the sources: buildDictionaryMap
(src/packages/sdk/src/compress.ts), extractDictionary
(src/packages/sdk/src/wasm/loader.ts) and the inline parse in
StreamingCompressorImpl.finish (src/packages/sdk/src/streaming.ts), so it
is embedded once.  It reads (meta, length, definition) records until the
list is exhausted or the dictionary-end token appears at a record
boundary; a length field pointing past the end of the input makes the loop
break, returning the map built so far.  One JavaScript subtlety is kept:
when the stream ends directly after a meta token, the length read yields
undefined, the bounds test (pos + undefined > length) is false because
NaN compares false, slice(pos, NaN) is empty, and the loop exits after
recording the meta token with an empty definition.  The fuel argument is
initialised with the length of the list being parsed; every iteration of
the source loop consumes at least two tokens, so the fuel never runs out
and the 0 case is unreachable. -/

/-- The shared dictionary entry-parsing loop of the three SDK parsers. -/
def sdkParseEntriesF (de : Nat) : Nat → DictMap → List Nat → DictMap
  | 0, acc, _ => acc
  | _ + 1, acc, [] => acc
  | _ + 1, acc, [m] =>
    if m = de then acc else mapSet acc m []
  | f + 1, acc, m :: len :: rest =>
    if m = de then acc
    else if len > rest.length then acc
    else sdkParseEntriesF de f (mapSet acc m (rest.take len)) (rest.drop len)

/-- Run the shared entry loop on a suffix, with enough fuel. -/
def sdkParseEntries (de : Nat) (suffix : List Nat) : DictMap :=
  sdkParseEntriesF de suffix.length [] suffix

/-- buildDictionaryMap (src/packages/sdk/src/compress.ts, lines 152-187):
empty input yields the empty map; otherwise scan to the first
DEFAULT_CONFIG.dictStartToken, skip it, and run the entry loop. -/
def buildDictionaryMap (dictionaryTokens : List Nat) : DictMap :=
  if dictionaryTokens.length = 0 then []
  else
    sdkParseEntries DEFAULT_CONFIG.dictEndToken
      (dropThroughToken DEFAULT_CONFIG.dictStartToken dictionaryTokens)

/-- extractDictionary (src/packages/sdk/src/wasm/loader.ts, lines 321-354):
find the first dictionary-start token with indexOf; if absent return the
empty map, otherwise run the entry loop on the suffix after it. -/
def extractDictionary (tokens : List Nat) (config : Option DecompressionConfig) :
    DictMap :=
  let inputTokens := normalizeTokens tokens
  let dictStart := ((config.bind (·.dictStartToken)).getD DEFAULT_CONFIG.dictStartToken)
  let dictEnd := ((config.bind (·.dictEndToken)).getD DEFAULT_CONFIG.dictEndToken)
  match findTokenIdx dictStart inputTokens with
  | none => []
  | some idx => sdkParseEntries dictEnd (inputTokens.drop (idx + 1))

/-- The inline dictionary parse in StreamingCompressorImpl.finish
(src/packages/sdk/src/streaming.ts, lines 134-152): same scan-and-parse as
buildDictionaryMap, without the empty-input early return, using the
compressor's resolved configuration tokens. -/
def streamingDictParse (dictionaryTokens : List Nat) (dictStart dictEnd : Nat) :
    DictMap :=
  sdkParseEntries dictEnd (dropThroughToken dictStart dictionaryTokens)

/-- extractBody (src/packages/sdk/src/wasm/loader.ts, lines 363-379): find
the first dictionary-end token with indexOf; if absent return all tokens,
otherwise everything after it. -/
def extractBody (tokens : List Nat) (config : Option DecompressionConfig) :
    List Nat :=
  let inputTokens := normalizeTokens tokens
  let dictEnd := ((config.bind (·.dictEndToken)).getD DEFAULT_CONFIG.dictEndToken)
  match findTokenIdx dictEnd inputTokens with
  | none => inputTokens
  | some idx => inputTokens.drop (idx + 1)

/-- isCompressed (src/packages/sdk/src/wasm/loader.ts, lines 390-397):
true iff the sequence contains the dictionary-start token. -/
def isCompressed (tokens : List Nat) (config : Option DecompressionConfig) :
    Bool :=
  let inputTokens := normalizeTokens tokens
  let dictStart := ((config.bind (·.dictStartToken)).getD DEFAULT_CONFIG.dictStartToken)
  inputTokens.any (fun t => t = dictStart)

/-! ## Core compression engine

Modelled from the spec: the WebAssembly core (wasm.compress,
wasm.decompress, wasm.discover_patterns, the StreamingCompressor) is not
among the provided sources; only its TypeScript declarations in
src/packages/sdk/src/wasm/loader.ts are.  The definitions below follow
spec sections 4.2-4.6: suffix-array discovery is modelled by direct
window enumeration with the same contract (candidates are patterns with a
greedily filtered non-overlapping occurrence list, subject to the
compressibility constraint); selection dispatches on the configured mode
over the four strategies of section 4.3 (greedy, optimal as weighted
interval scheduling over occurrences, beam search of the configured
width, and ilp, which degrades to optimal because no external solver is
present, as section 4.3 requires); the serializer emits the
dictionary-plus-body wire format of section 4.4 and validates each
occurrence against the input before replacing it, per the validation
clause of section 4.4; and the hierarchical driver of section 4.6 runs
up to hierarchical_max_depth sequential passes (one pass when
hierarchical_enabled is false), each pass treating the meta-tokens of
previous passes as ordinary tokens, drawing its own meta-tokens from the
next disjoint sub-range of the meta range, and the final artifact's
dictionary being the concatenation of the passes' dictionaries in
outer-to-inner order.  Deserialization (section 4.5) undoes the layers in
reverse by recursive expansion: an outer meta-token's definition mentions
inner-layer meta-tokens, which the expander resolves recursively. -/

/-- Core (wasm-level) compression configuration: the configuration
surface of spec section 6 that the engine consumes (the remaining SDK
options, streamingThreshold and maxMemoryMb, steer the TypeScript facade,
not the core pipeline). -/
structure CoreConfig where
  minSubsequenceLength : Nat
  maxSubsequenceLength : Nat
  selectionMode : SelectionMode
  beamWidth : Nat
  hierarchicalEnabled : Bool
  hierarchicalMaxDepth : Nat
  verify : Bool
  dictStartToken : Nat
  dictEndToken : Nat
  nextMetaToken : Nat
deriving DecidableEq

/-- The core configuration obtained from the SDK defaults. -/
def defaultCoreConfig : CoreConfig :=
  ⟨DEFAULT_CONFIG.minSubsequenceLength, DEFAULT_CONFIG.maxSubsequenceLength,
   DEFAULT_CONFIG.selectionMode, DEFAULT_CONFIG.beamWidth,
   DEFAULT_CONFIG.hierarchicalEnabled, DEFAULT_CONFIG.hierarchicalMaxDepth,
   DEFAULT_CONFIG.verify,
   DEFAULT_CONFIG.dictStartToken, DEFAULT_CONFIG.dictEndToken,
   DEFAULT_CONFIG.nextMetaToken⟩

inductive CompressError where
  | configInvalid
  | tokenRangeCollision
  | verificationFailure
deriving DecidableEq

inductive DecompressError where
  | truncated (offset : Nat)
  | cycle (token : Nat)
deriving DecidableEq

/-- The result record returned by the core (CompressionResultWasm fields). -/
structure CoreResult where
  serializedTokens : List Nat
  dictionaryTokens : List Nat
  bodyTokens : List Nat
  originalTokens : List Nat
  originalLength : Nat
  compressedLength : Nat
deriving DecidableEq

/-- A discovered candidate: pattern contents, filtered occurrence starts,
length and count (spec section 3, Candidate). -/
structure Candidate where
  pattern : List Nat
  positions : List Nat
  len : Nat
  count : Nat
deriving DecidableEq

/-- All length-L windows of T (the patterns a suffix-array walk can
surface at depth L). -/
def windows (T : List Nat) (L : Nat) : List (List Nat) :=
  (List.range (T.length + 1 - L)).map (fun s => (T.drop s).take L)

/-- Deduplicate, keeping first occurrences (spec section 4.2 step 4). -/
def dedupAcc (seen : List (List Nat)) : List (List Nat) → List (List Nat)
  | [] => []
  | x :: rest =>
    if x ∈ seen then dedupAcc seen rest
    else x :: dedupAcc (x :: seen) rest

/-- Greedy scan for non-overlapping occurrences of a pattern: accept each
match and resume after it, otherwise advance one position (spec section
4.2 step 2).  Fuel is initialised with the list length; every step
consumes at least one element, so the 0 case is unreachable. -/
def greedyOccsF (pat : List Nat) : Nat → List Nat → Nat → List Nat
  | 0, _, _ => []
  | f + 1, rest, i =>
    if pat ≠ [] ∧ rest.take pat.length = pat then
      i :: greedyOccsF pat f (rest.drop pat.length) (i + pat.length)
    else
      match rest with
      | [] => []
      | _ :: rest2 => greedyOccsF pat f rest2 (i + 1)

/-- Non-overlapping occurrence starts of a pattern in T. -/
def greedyOccs (T pat : List Nat) : List Nat :=
  greedyOccsF pat T.length T 0

/-- The compressibility constraint of spec section 4.2 with the dictionary
entry header as overhead: length times count must exceed
length + count + overhead. -/
def compressible (L c : Nat) : Prop := L * c > L + c + 2

instance (L c : Nat) : Decidable (compressible L c) := by
  unfold compressible; infer_instance

/-- Candidates of one length: deduplicated windows with at least two
non-overlapping occurrences that pass the compressibility test. -/
def candidatesOfLength (T : List Nat) (L : Nat) : List Candidate :=
  (dedupAcc [] (windows T L)).filterMap (fun p =>
    let occ := greedyOccs T p
    if 2 ≤ occ.length ∧ compressible L occ.length then
      some ⟨p, occ, L, occ.length⟩
    else none)

/-- Candidates over every length in the configured range. -/
def allCandidates (T : List Nat) (minL maxL : Nat) : List Candidate :=
  (List.range' minL (maxL + 1 - minL)).flatMap (candidatesOfLength T)

/-- Strict lexicographic order on token lists (used for deterministic
tie-breaking). -/
def lexLtTokens : List Nat → List Nat → Bool
  | [], [] => false
  | [], _ :: _ => true
  | _ :: _, [] => false
  | a :: as, b :: bs =>
    if a < b then true else if b < a then false else lexLtTokens as bs

/-- Generic insertion into a list sorted by a Boolean comparator. -/
def insertSorted (le : α → α → Bool) (x : α) : List α → List α
  | [] => [x]
  | y :: rest => if le y x then y :: insertSorted le x rest else x :: y :: rest

/-- Generic insertion sort by a Boolean comparator. -/
def sortBy (le : α → α → Bool) : List α → List α
  | [] => []
  | x :: rest => insertSorted le x (sortBy le rest)

/-- Raw savings of a candidate: length times count minus
(length + count + overhead) (truncated at zero; candidates that survive
discovery always have positive savings). -/
def candScore (c : Candidate) : Nat :=
  c.len * c.count - (c.len + c.count + 2)

/-- Discovery emission order (spec section 4.2): raw savings descending,
ties by length descending, then by lexicographic pattern contents. -/
def candBefore (a b : Candidate) : Bool :=
  if candScore b < candScore a then true
  else if candScore a < candScore b then false
  else if b.len < a.len then true
  else if a.len < b.len then false
  else lexLtTokens a.pattern b.pattern

/-- Greedy selection order (spec section 4.3): savings density descending
(compared by cross-multiplication), ties by longer pattern, higher count,
lexicographically smaller contents. -/
def densityBefore (a b : Candidate) : Bool :=
  let da := (a.len - 1) * a.count * (b.len + b.count + 2)
  let db := (b.len - 1) * b.count * (a.len + a.count + 2)
  if db < da then true
  else if da < db then false
  else if b.len < a.len then true
  else if a.len < b.len then false
  else if b.count < a.count then true
  else if a.count < b.count then false
  else lexLtTokens a.pattern b.pattern

/-- Candidates as emitted by discovery, sorted in the canonical order. -/
def discoverCandidates (T : List Nat) (minL maxL : Nat) : List Candidate :=
  sortBy candBefore (allCandidates T minL maxL)

/-- Does the half-open interval [s, s+L) overlap any covered interval? -/
def overlapsAny (covered : List (Nat × Nat)) (s L : Nat) : Bool :=
  covered.any (fun c => decide (s < c.1 + c.2) && decide (c.1 < s + L))

/-- Accept every occurrence that does not overlap an already covered
interval, extending the covered set as we go (greedy mode, section 4.3). -/
def pickOccs (L : Nat) : List (Nat × Nat) → List Nat → List Nat × List (Nat × Nat)
  | covered, [] => ([], covered)
  | covered, s :: rest =>
    if overlapsAny covered s L then pickOccs L covered rest
    else
      let r := pickOccs L ((s, L) :: covered) rest
      (s :: r.1, r.2)

/-- Greedy selection over density-ordered candidates: each candidate keeps
the occurrences that survive the overlap filter; candidates left with
fewer than two occurrences are dropped. -/
def selectGo : List Candidate → List (Nat × Nat) → List (List Nat × List Nat)
  | [], _ => []
  | c :: rest, covered =>
    let pr := pickOccs c.pattern.length covered c.positions
    if 2 ≤ pr.1.length then (c.pattern, pr.1) :: selectGo rest pr.2
    else selectGo rest covered

/-! ### The four selection strategies (spec section 4.3)

Each yields a list of (pattern, selected occurrence starts) pairs. -/

/-- One occurrence as an interval for weighted interval scheduling:
start, length, weight, and the candidate pattern it belongs to.  The
weight is length - 1 minus an amortized share of the candidate's
dictionary cost (the share is the integer quotient of cost by count,
the modelling of the spec's amortization). -/
structure OccInterval where
  start : Nat
  len : Nat
  weight : Int
  pattern : List Nat
deriving DecidableEq

/-- All candidate occurrences as weighted intervals. -/
def occIntervals (cands : List Candidate) : List OccInterval :=
  cands.flatMap (fun c => c.positions.map (fun s =>
    ⟨s, c.pattern.length,
     (c.pattern.length : Int) - 1 -
       (((c.pattern.length : Int) + 2) / (c.count : Int)),
     c.pattern⟩))

/-- Intervals ordered by end position (the sort key of the weighted
interval scheduling DP; insertion sort is stable, keeping ties
deterministic). -/
def intervalByEnd (a b : OccInterval) : Bool :=
  decide (a.start + a.len ≤ b.start + b.len)

/-- Number of already processed intervals compatible with a start
position (their ends do not cross it).  Because the intervals are
processed in end order these form a prefix, so this is the predecessor
index of the DP (the spec's binary search computes the same index). -/
def predCount (processed : List OccInterval) (s : Nat) : Nat :=
  processed.countP (fun o => decide (o.start + o.len ≤ s))

/-- The DP choice for one interval: the best selection over the processed
prefix either skips the new interval (the previous prefix optimum, the
head of the table) or takes it together with the optimum over its
compatible prefix (the table entry at the predecessor index). -/
def wisBest (st : List OccInterval × List (Int × List OccInterval))
    (o : OccInterval) : Int × List OccInterval :=
  if (st.2.headD (0, [])).1 <
      o.weight + (st.2.getD (st.1.length - predCount st.1 o.start) (0, [])).1 then
    (o.weight + (st.2.getD (st.1.length - predCount st.1 o.start) (0, [])).1,
     o :: (st.2.getD (st.1.length - predCount st.1 o.start) (0, [])).2)
  else st.2.headD (0, [])

/-- One DP step of weighted interval scheduling: append the interval to
the processed prefix and push the new prefix optimum onto the table
(newest first, ending with the empty selection). -/
def wisStep (st : List OccInterval × List (Int × List OccInterval))
    (o : OccInterval) : List OccInterval × List (Int × List OccInterval) :=
  (st.1 ++ [o], wisBest st o :: st.2)

/-- Regroup chosen intervals into (pattern, starts) pairs, each occurrence
contributing to its own candidate's entry. -/
def insertOcc (p : List Nat) (s : Nat) :
    List (List Nat × List Nat) → List (List Nat × List Nat)
  | [] => [(p, [s])]
  | (q, ss) :: rest =>
    if q = p then (q, ss ++ [s]) :: rest else (q, ss) :: insertOcc p s rest

/-- Group a chosen interval set by pattern. -/
def groupByPattern (chosen : List OccInterval) : List (List Nat × List Nat) :=
  chosen.foldl (fun acc o => insertOcc o.pattern o.start acc) []

/-- Optimal mode: weighted interval scheduling over occurrences, solved
by sorting on end position and dynamic programming over prefix optima
(spec section 4.3). -/
def selectOptimal (cands : List Candidate) : List (List Nat × List Nat) :=
  groupByPattern
    (((sortBy intervalByEnd (occIntervals cands)).foldl wisStep
        ([], [((0 : Int), ([] : List OccInterval))])).2.headD (0, [])).2

/-- A partial selection carried by beam search: chosen (pattern, starts)
pairs, the covered intervals, and the accumulated savings. -/
structure BeamState where
  chosen : List (List Nat × List Nat)
  covered : List (Nat × Nat)
  savings : Nat
deriving DecidableEq

/-- Expand one beam state by including or excluding the next candidate
(inclusion keeps the occurrences that survive the overlap filter, and is
offered only when at least two survive). -/
def beamExpand (c : Candidate) (st : BeamState) : List BeamState :=
  let pr := pickOccs c.pattern.length st.covered c.positions
  if 2 ≤ pr.1.length then
    ⟨st.chosen ++ [(c.pattern, pr.1)], pr.2,
      st.savings + ((c.pattern.length - 1) * pr.1.length - (c.pattern.length + 2))⟩
      :: [st]
  else [st]

/-- Beam states ordered by total savings descending. -/
def beamStateLE (a b : BeamState) : Bool := decide (b.savings ≤ a.savings)

/-- One beam step: expand every state by the next-scoring candidate and
keep the top width states. -/
def beamStep (width : Nat) (states : List BeamState) (c : Candidate) :
    List BeamState :=
  (sortBy beamStateLE (states.flatMap (beamExpand c))).take width

/-- Beam mode: maintain width partial selections ordered by total savings,
expanding by inclusion/exclusion of each candidate in order (spec section
4.3). -/
def selectBeam (width : Nat) (cands : List Candidate) :
    List (List Nat × List Nat) :=
  ((cands.foldl (beamStep width) [⟨[], [], 0⟩]).headD ⟨[], [], 0⟩).chosen

/-- Selection dispatch on the configured mode (spec section 4.3 and
design note: a single sum type, dispatch on the variant).  ilp degrades
to optimal because no external solver is present, as the spec requires. -/
def selectionWithMode (mode : SelectionMode) (width : Nat)
    (cands : List Candidate) : List (List Nat × List Nat) :=
  match mode with
  | SelectionMode.greedy => selectGo (sortBy densityBefore cands) []
  | SelectionMode.optimal => selectOptimal cands
  | SelectionMode.beam => selectBeam width cands
  | SelectionMode.ilp => selectOptimal cands

/-- The selection one compression pass makes on its input. -/
def passSelection (body : List Nat) (cfg : CoreConfig) :
    List (List Nat × List Nat) :=
  selectionWithMode cfg.selectionMode cfg.beamWidth
    (discoverCandidates body cfg.minSubsequenceLength cfg.maxSubsequenceLength)

/-- Assign meta-tokens in selection order: the k-th selected pattern gets
nextMetaToken + k (spec section 4.4, meta-token allocation). -/
def withMetas (nm : Nat) : List (List Nat × List Nat) → List (Nat × List Nat × List Nat)
  | [] => []
  | (p, ss) :: rest => (nm, p, ss) :: withMetas (nm + 1) rest

/-- The dictionary entries of a plan, in emission order. -/
def dictEntriesOf (plan : List (Nat × List Nat × List Nat)) : DictMap :=
  plan.map (fun e => (e.1, e.2.1))

/-- All selected occurrences of a plan, tagged with their meta-token and
pattern. -/
def planOccs (plan : List (Nat × List Nat × List Nat)) : List (Nat × Nat × List Nat) :=
  plan.flatMap (fun e => e.2.2.map (fun s => (s, e.1, e.2.1)))

/-- Sort occurrences by start position. -/
def sortByStart (l : List (Nat × Nat × List Nat)) : List (Nat × Nat × List Nat) :=
  sortBy (fun a b => decide (a.1 ≤ b.1)) l

/-- Convert absolute occurrence starts to gaps from the current position. -/
def toGaps (cur : Nat) : List (Nat × Nat × List Nat) → List (Nat × Nat × List Nat)
  | [] => []
  | (s, m, p) :: rest => (s - cur, m, p) :: toGaps (s + p.length) rest

/-- Emit the body: for each occurrence, copy the gap literally, then — after
validating that the pattern really is present at that point of the input,
per the serializer validation of section 4.4 — emit the meta-token and skip
the pattern; occurrences that fail validation are not replaced. -/
def bodyGo (rest : List Nat) : List (Nat × Nat × List Nat) → List Nat
  | [] => rest
  | (g, m, p) :: occs =>
    if p ≠ [] ∧ (rest.drop g).take p.length = p then
      rest.take g ++ m :: bodyGo (rest.drop (g + p.length)) occs
    else bodyGo rest occs

/-- Flatten dictionary entries into the wire form
meta, length, definition tokens (spec section 4.4). -/
def entriesFlat : DictMap → List Nat
  | [] => []
  | (m, d) :: rest => m :: d.length :: (d ++ entriesFlat rest)

/-! ### The hierarchical driver (spec section 4.6)

The driver runs the pipeline sequentially, each pass compressing the body
produced by the previous pass and treating its meta-tokens as ordinary
tokens; each pass draws its meta-tokens from the next disjoint sub-range
of the meta range (its next_meta_token picks up where the previous pass
stopped allocating); the passes' dictionaries are concatenated in
outer-to-inner order; and the driver stops early when a pass finds no
profitable selection (a normal terminal condition per spec section 7). -/

/-- One pass per iteration: compress the current body with the pass's
meta range, accumulate the dictionary, stop when nothing is selected,
fail when the meta range cannot hold the pass's selection (spec section
4.4, validation clause (ii)). -/
def hierLoop (cfg : CoreConfig) : Nat → List Nat → Nat → DictMap →
    Except CompressError (List Nat × DictMap × Nat)
  | 0, body, nm, entries => Except.ok (body, entries, nm)
  | k + 1, body, nm, entries =>
    if passSelection body cfg = [] then Except.ok (body, entries, nm)
    else if nm + (passSelection body cfg).length ≤ cfg.dictStartToken ∧
        nm + (passSelection body cfg).length ≤ cfg.dictEndToken then
      hierLoop cfg k
        (bodyGo body
          (toGaps 0 (sortByStart (planOccs (withMetas nm (passSelection body cfg))))))
        (nm + (passSelection body cfg).length)
        (entries ++ dictEntriesOf (withMetas nm (passSelection body cfg)))
    else Except.error CompressError.configInvalid

/-- The number of passes the driver attempts: hierarchical_max_depth when
hierarchical compression is enabled, one pass otherwise. -/
def hierPasses (cfg : CoreConfig) : Nat :=
  if cfg.hierarchicalEnabled then cfg.hierarchicalMaxDepth else 1

/-- Assemble the result record: with no dictionary entries the output is
the input with no framing (spec section 4.4, empty selection), otherwise
DICT_START, the accumulated dictionary, DICT_END, then the final body. -/
def compressOutput (T : List Nat) (cfg : CoreConfig) (body : List Nat)
    (entries : DictMap) : CoreResult :=
  if entries = [] then ⟨T, [], T, T, T.length, T.length⟩
  else
    ⟨(cfg.dictStartToken :: (entriesFlat entries ++ [cfg.dictEndToken])) ++ body,
     cfg.dictStartToken :: (entriesFlat entries ++ [cfg.dictEndToken]),
     body, T, T.length,
     (cfg.dictStartToken :: (entriesFlat entries ++ [cfg.dictEndToken])).length +
       body.length⟩

/-! ### Deserializer (spec section 4.5)

Modelled from the spec: find the first DICT_START (if absent, the stream
is returned unchanged); parse entries until DICT_END, failing with
Truncated at the offset where a defect is detected (stream exhausted
mid-entry, or DICT_END appearing inside a definition whose length field
promises more tokens); then expand the body, recursively replacing each
token that has a dictionary entry, with a depth bound of one more than the
number of entries so that a cycle in the definitions is reported rather
than looped on. -/

/-- Association lookup in the dictionary. -/
def lookupDict (M : DictMap) (t : Nat) : Option (List Nat) :=
  match M with
  | [] => none
  | (k, v) :: rest => if k = t then some v else lookupDict rest t

/-- Read exactly n definition tokens; the stream ending or the
dictionary-end token appearing first is a truncation, reported at the
offset where it was detected. -/
def readDef (de : Nat) : Nat → List Nat → Nat → Except DecompressError (List Nat × List Nat)
  | 0, rest, _ => Except.ok ([], rest)
  | _ + 1, [], pos => Except.error (DecompressError.truncated pos)
  | n + 1, t :: rest, pos =>
    if t = de then Except.error (DecompressError.truncated pos)
    else
      match readDef de n rest (pos + 1) with
      | Except.error e => Except.error e
      | Except.ok (d, remaining) => Except.ok (t :: d, remaining)

/-- Parse dictionary entries until the dictionary-end token, building the
entry list in stream order.  The fuel is one more than the remaining
stream length, which bounds the number of entries; pos is the absolute
offset of the next token, used for error reporting. -/
def parseEntriesF (de : Nat) : Nat → List Nat → Nat → Except DecompressError (DictMap × List Nat)
  | 0, _, pos => Except.error (DecompressError.truncated pos)
  | _ + 1, [], pos => Except.error (DecompressError.truncated pos)
  | f + 1, t :: rest, pos =>
    if t = de then Except.ok ([], rest)
    else
      match rest with
      | [] => Except.error (DecompressError.truncated (pos + 1))
      | len :: rest2 =>
        match readDef de len rest2 (pos + 2) with
        | Except.error e => Except.error e
        | Except.ok (d, remaining) =>
          match parseEntriesF de f remaining (pos + 2 + len) with
          | Except.error e => Except.error e
          | Except.ok (m, body) => Except.ok ((t, d) :: m, body)

/-- Expand one token at a given depth: a token without an entry stands for
itself; a token with an entry is replaced by the expansion of its
definition one level deeper, and running out of depth reports a cycle. -/
def expandTok (M : DictMap) : Nat → Nat → Except DecompressError (List Nat)
  | 0, t =>
    match lookupDict M t with
    | none => Except.ok [t]
    | some _ => Except.error (DecompressError.cycle t)
  | dep + 1, t =>
    match lookupDict M t with
    | none => Except.ok [t]
    | some d =>
      d.foldr
        (fun x acc =>
          match expandTok M dep x with
          | Except.error e => Except.error e
          | Except.ok ex =>
            match acc with
            | Except.error e2 => Except.error e2
            | Except.ok r => Except.ok (ex ++ r))
        (Except.ok [])

/-- Expand a token sequence at a given depth. -/
def expandSeq (M : DictMap) (dep : Nat) : List Nat → Except DecompressError (List Nat)
  | [] => Except.ok []
  | t :: rest =>
    match expandTok M dep t with
    | Except.error e => Except.error e
    | Except.ok ex =>
      match expandSeq M dep rest with
      | Except.error e => Except.error e
      | Except.ok r => Except.ok (ex ++ r)

/-- decompress of the core (spec section 4.5). -/
def decompressSpec (W : List Nat) (ds de : Nat) : Except DecompressError (List Nat) :=
  match findTokenIdx ds W with
  | none => Except.ok W
  | some idx =>
    let rest := W.drop (idx + 1)
    match parseEntriesF de (rest.length + 1) rest (idx + 1) with
    | Except.error e => Except.error e
    | Except.ok (entries, body) => expandSeq entries (entries.length + 1) body

instance {ε α : Type} [DecidableEq ε] [DecidableEq α] : DecidableEq (Except ε α) := by
  intro a b
  cases a <;> cases b
  case error.error e1 e2 => exact decidable_of_iff (e1 = e2) (by simp)
  case error.ok e v => exact isFalse (by simp)
  case ok.error v e => exact isFalse (by simp)
  case ok.ok v1 v2 => exact decidable_of_iff (v1 = v2) (by simp)

/-- compress of the core (spec sections 4.2-4.6): reject inputs that
collide with the meta or control ranges (TokenRangeCollision, spec
section 7) and configurations whose meta range is exhausted
(ConfigInvalid); run the hierarchical driver; serialize; and with
verify set, decompress the emitted stream and fail on mismatch
(VerificationFailure, spec section 6). -/
def compressCore (T : List Nat) (cfg : CoreConfig) : Except CompressError CoreResult :=
  if ∀ t ∈ T, t < cfg.nextMetaToken then
    if cfg.nextMetaToken ≤ cfg.dictStartToken ∧
        cfg.nextMetaToken ≤ cfg.dictEndToken then
      match hierLoop cfg (hierPasses cfg) T cfg.nextMetaToken [] with
      | Except.error e => Except.error e
      | Except.ok (body, entries, _) =>
        if cfg.verify then
          if decompressSpec (compressOutput T cfg body entries).serializedTokens
              cfg.dictStartToken cfg.dictEndToken = Except.ok T then
            Except.ok (compressOutput T cfg body entries)
          else Except.error CompressError.verificationFailure
        else Except.ok (compressOutput T cfg body entries)
    else Except.error CompressError.configInvalid
  else Except.error CompressError.tokenRangeCollision

/-! ## discoverPatterns (src/packages/sdk/src/compress.ts, lines 200-216)

The wrapper normalizes its input, defaults the length bounds to 2 and 8
when they are omitted, and calls the core discovery
(wasm.discover_patterns, modelled from the spec by discoverCandidates). -/

/-- The core discovery entry point (modelled from the spec, see
discoverCandidates). -/
def discover_patterns (T : List Nat) (minLength maxLength : Nat) : List Candidate :=
  discoverCandidates T minLength maxLength

/-- discoverPatterns with its optional length bounds. -/
def discoverPatterns (tokens : List Nat) (minLength maxLength : Option Nat) :
    List Candidate :=
  discover_patterns (normalizeTokens tokens) (minLength.getD 2) (maxLength.getD 8)

/-! ## Streaming compressor (src/packages/sdk/src/streaming.ts)

The wrapper StreamingCompressorImpl keeps a finished flag: addChunk and
finish throw once the flag is set, finish sets it and calls the
underlying core finish exactly once.  The underlying wasm
StreamingCompressor is modelled from the spec (section 9, streaming
driver): it accumulates the chunks passed to add_chunk and runs the core
compress once over the accumulated input at finish.  The state below
merges the two: an accumulation buffer, the wrapper's finished flag, and
a counter of how many times the core compression has been invoked. -/

inductive StreamingError where
  /-- the error thrown by addChunk after finish:
  "Cannot add chunks to a finished compressor". -/
  | addAfterFinish
  /-- the error thrown by a second finish:
  "Compressor has already been finished". -/
  | finishTwice
deriving DecidableEq

structure StreamState where
  buffer : List Nat
  finished : Bool
  coreCalls : Nat
deriving DecidableEq

/-- The state of a freshly created streaming compressor. -/
def newStreamState : StreamState := ⟨[], false, 0⟩

/-- addChunk: reject if finished, otherwise normalize and accumulate. -/
def addChunk (s : StreamState) (tokens : List Nat) : Except StreamingError StreamState :=
  if s.finished then Except.error StreamingError.addAfterFinish
  else Except.ok ⟨s.buffer ++ normalizeTokens tokens, s.finished, s.coreCalls⟩

/-- finish: reject if already finished, otherwise set the flag and invoke
the core compression, exactly once, on the accumulated buffer. -/
def finishStream (cfg : CoreConfig) (s : StreamState) :
    Except StreamingError (StreamState × Except CompressError CoreResult) :=
  if s.finished then Except.error StreamingError.finishTwice
  else Except.ok (⟨s.buffer, true, s.coreCalls + 1⟩, compressCore s.buffer cfg)

/-- isFinished: the wrapper's flag. -/
def isFinished (s : StreamState) : Bool := s.finished

/-- Feed a list of chunks in call order, stopping at the first error. -/
def addAll (s : StreamState) : List (List Nat) → Except StreamingError StreamState
  | [] => Except.ok s
  | c :: rest =>
    match addChunk s c with
    | Except.error e => Except.error e
    | Except.ok s2 => addAll s2 rest

/-! ## Worker pool (src/packages/sdk/src/worker.ts)

A pool holds workerCount workers; pool.compress marshals the tokens with
Array.from (the identity on our embedding), picks the next worker round
robin, and the worker runs the same compress entry point on the message.
The pool size and the rotation position therefore cannot influence the
result. -/

/-- The request a pool worker executes: compress the marshalled tokens
with the given configuration. -/
def workerRun (tokens : List Nat) (cfg : CoreConfig) : Except CompressError CoreResult :=
  compressCore (normalizeTokens tokens) cfg

/-- The workers of a pool of the given size: every worker runs workerRun. -/
def poolWorkers (count : Nat) :
    List (List Nat → CoreConfig → Except CompressError CoreResult) :=
  List.replicate count workerRun

/-- pool.compress: round-robin dispatch of a compress request to one of the
pool's workers. -/
def workerPoolCompress (count idx : Nat) (tokens : List Nat) (cfg : CoreConfig) :
    Except CompressError CoreResult :=
  ((poolWorkers count).getD (idx % count) workerRun) tokens cfg

/-! ## processInChunks (src/packages/sdk/src/streaming.ts, lines 213-229)

The loop walks the normalized input in steps of chunkSize, passing each
chunk and its start offset to the callback.  We record the sequence of
(chunk, index) arguments the callbacks receive; the collected results are
the image of that list under the callback.  A chunk size of zero makes
the source loop diverge, which the embedding reports as none. -/

/-- The (chunk, start offset) arguments produced by the loop, for chunk
size c + 1.  Fuel is initialised with the input length; every step
consumes at least one element. -/
def chunkCallsF (c : Nat) : Nat → List Nat → Nat → List (List Nat × Nat)
  | 0, _, _ => []
  | _ + 1, [], _ => []
  | f + 1, t :: rest, i =>
    ((t :: rest).take (c + 1), i) :: chunkCallsF c f ((t :: rest).drop (c + 1)) (i + (c + 1))

/-- processInChunks, as the list of callback invocations it performs. -/
def processInChunks (tokens : List Nat) (chunkSize : Nat) :
    Option (List (List Nat × Nat)) :=
  let normalized := normalizeTokens tokens
  match chunkSize with
  | 0 => none
  | c + 1 => some (chunkCallsF c normalized.length normalized 0)

/-! ## Supporting lemmas -/

/-- Unfolding of extractDictionary at the default configuration. -/
theorem extractDictionary_none (ts : List Nat) :
    extractDictionary ts none =
      (match findTokenIdx DEFAULT_CONFIG.dictStartToken ts with
       | none => []
       | some idx =>
         sdkParseEntries DEFAULT_CONFIG.dictEndToken (ts.drop (idx + 1))) := rfl

/-- Unfolding of extractBody at the default configuration. -/
theorem extractBody_none (ts : List Nat) :
    extractBody ts none =
      (match findTokenIdx DEFAULT_CONFIG.dictEndToken ts with
       | none => ts
       | some idx => ts.drop (idx + 1)) := rfl

/-- Unfolding of isCompressed at the default configuration. -/
theorem isCompressed_none (ts : List Nat) :
    isCompressed ts none = ts.any (fun t => t = DEFAULT_CONFIG.dictStartToken) := rfl

theorem mapSet_append (acc : DictMap) (m : Nat) (d : List Nat)
    (h : ∀ a ∈ acc, a.1 ≠ m) : mapSet acc m d = acc ++ [(m, d)] := by
  unfold mapSet
  rw [if_neg]
  intro hany
  obtain ⟨a, ha, hp⟩ := List.any_eq_true.mp hany
  exact h a ha (of_decide_eq_true hp)

theorem sdkParseEntriesF_empty (de : Nat) (f : Nat) (acc : DictMap) :
    sdkParseEntriesF de f acc [] = acc := by
  cases f <;> rfl

/-- The shared SDK entry loop inverts entriesFlat: on a well-formed wire
dictionary (meta-tokens distinct, not equal to the dictionary-end token,
and fresh for the accumulator), it appends exactly the serialized
entries. -/
theorem sdkParseEntriesF_wire (de : Nat) (entries : DictMap) :
    ∀ (body : List Nat) (f : Nat) (acc : DictMap),
      (entriesFlat entries ++ de :: body).length ≤ f →
      (∀ e ∈ entries, e.1 ≠ de) →
      (∀ e ∈ entries, ∀ a ∈ acc, a.1 ≠ e.1) →
      (entries.map Prod.fst).Nodup →
      sdkParseEntriesF de f acc (entriesFlat entries ++ de :: body) = acc ++ entries := by
  induction entries with
  | nil =>
    intro body f acc hf _ _ _
    simp only [entriesFlat, List.nil_append, List.append_nil]
    cases f with
    | zero => simp at hf
    | succ f =>
      cases body with
      | nil => simp [sdkParseEntriesF]
      | cons b bs => simp [sdkParseEntriesF]
  | cons e rest ih =>
    obtain ⟨m, d⟩ := e
    intro body f acc hf hm hfresh hnodup
    have hflat : entriesFlat ((m, d) :: rest) ++ de :: body =
        m :: d.length :: (d ++ (entriesFlat rest ++ de :: body)) := by
      simp [entriesFlat, List.append_assoc]
    rw [hflat]
    rw [hflat] at hf
    cases f with
    | zero => simp at hf
    | succ f =>
      have hmne : m ≠ de := hm (m, d) (List.mem_cons_self _ _)
      have hrest2 : ¬ d.length > (d ++ (entriesFlat rest ++ de :: body)).length := by
        simp only [List.length_append]
        omega
      simp only [sdkParseEntriesF, if_neg hmne, if_neg hrest2]
      rw [List.take_left, List.drop_left]
      have hfreshm : ∀ a ∈ acc, a.1 ≠ m := fun a ha =>
        hfresh (m, d) (List.mem_cons_self _ _) a ha
      rw [mapSet_append acc m d hfreshm]
      rw [List.map_cons] at hnodup
      have hnodup' := List.nodup_cons.mp hnodup
      rw [ih body f (acc ++ [(m, d)])
        (by
          simp only [List.length_cons, List.length_append] at hf ⊢
          omega)
        (fun e he => hm e (List.mem_cons_of_mem _ he))
        (by
          intro e he a ha
          rcases List.mem_append.mp ha with hacc | hone
          · exact hfresh e (List.mem_cons_of_mem _ he) a hacc
          · have ha1 : a = (m, d) := by simpa using hone
            subst ha1
            intro heq
            exact hnodup'.1 (by rw [heq]; exact List.mem_map_of_mem Prod.fst he))
        hnodup'.2]
      simp [List.append_assoc]

/-- No token of a well-formed flattened dictionary equals the
dictionary-end token. -/
theorem entriesFlat_ne_de (de : Nat) (entries : DictMap)
    (hm : ∀ e ∈ entries, e.1 ≠ de)
    (hlen : ∀ e ∈ entries, e.2.length ≠ de)
    (hd : ∀ e ∈ entries, ∀ t ∈ e.2, t ≠ de) :
    ∀ t ∈ entriesFlat entries, t ≠ de := by
  induction entries with
  | nil =>
    intro t ht
    simp [entriesFlat] at ht
  | cons e rest ih =>
    obtain ⟨m, d⟩ := e
    intro t ht
    simp only [entriesFlat, List.mem_cons, List.mem_append] at ht
    rcases ht with rfl | rfl | hin | hin
    · exact hm (t, d) (List.mem_cons_self _ _)
    · exact hlen (m, d) (List.mem_cons_self _ _)
    · exact hd (m, d) (List.mem_cons_self _ _) t hin
    · exact ih (fun e he => hm e (List.mem_cons_of_mem _ he))
        (fun e he => hlen e (List.mem_cons_of_mem _ he))
        (fun e he => hd e (List.mem_cons_of_mem _ he)) t hin

/-! ## C8: the three SDK dictionary parsers agree -/

/-- C8: for every list of dictionary tokens, buildDictionaryMap (the
compress path), extractDictionary under the default configuration (the
loader helper) and the inline dictionary parse of
StreamingCompressor.finish under the default configuration produce the
same meta-token to definition map. -/
theorem C8_dictionary_parsers_agree (ts : List Nat) :
    buildDictionaryMap ts = extractDictionary ts none ∧
    streamingDictParse ts DEFAULT_CONFIG.dictStartToken DEFAULT_CONFIG.dictEndToken =
      buildDictionaryMap ts := by
  have hscan : sdkParseEntries DEFAULT_CONFIG.dictEndToken
      (dropThroughToken DEFAULT_CONFIG.dictStartToken ts) =
      extractDictionary ts none := by
    rw [extractDictionary_none, dropThroughToken_eq]
    cases h : findTokenIdx DEFAULT_CONFIG.dictStartToken ts with
    | none => rfl
    | some idx => rfl
  constructor
  · unfold buildDictionaryMap
    by_cases h0 : ts.length = 0
    · rw [if_pos h0]
      have hts : ts = [] := List.length_eq_zero.mp h0
      subst hts
      rfl
    · rw [if_neg h0]
      exact hscan
  · unfold streamingDictParse buildDictionaryMap
    by_cases h0 : ts.length = 0
    · rw [if_pos h0]
      have hts : ts = [] := List.length_eq_zero.mp h0
      subst hts
      rfl
    · rw [if_neg h0]

/-! ## C9: sequences without control tokens -/

/-- C9 counterexample: the sequence [1, dictEnd, 2] contains no
dictionary-start token, and isCompressed is false on it as the claim
states, but extractBody — which searches for the dictionary-END token —
does not return it unchanged. -/
theorem C9_counterexample :
    isCompressed [1, 0xFFFFFFF1, 2] none = false ∧
    extractBody [1, 0xFFFFFFF1, 2] none = [2] ∧
    extractBody [1, 0xFFFFFFF1, 2] none ≠ [1, 0xFFFFFFF1, 2] :=
  ⟨by decide, by decide, by decide⟩

/-- C9 (amended): for every token sequence that does not contain the
dictionary-start token, isCompressed returns false; and for every token
sequence that does not contain the dictionary-END token, extractBody
returns the sequence unchanged (extractBody keys on the dictionary-end
token, not the dictionary-start token). -/
theorem C9_amended (W : List Nat) :
    (DEFAULT_CONFIG.dictStartToken ∉ W → isCompressed W none = false) ∧
    (DEFAULT_CONFIG.dictEndToken ∉ W → extractBody W none = W) := by
  constructor
  · intro h
    rw [isCompressed_none]
    apply Bool.eq_false_iff.mpr
    intro hany
    obtain ⟨t, ht, hp⟩ := List.any_eq_true.mp hany
    have ht' : t = DEFAULT_CONFIG.dictStartToken := of_decide_eq_true hp
    exact h (ht' ▸ ht)
  · intro h
    have hne : ∀ t ∈ W, t ≠ DEFAULT_CONFIG.dictEndToken := by
      intro t ht heq
      exact h (heq ▸ ht)
    rw [extractBody_none, findTokenIdx_eq_none _ _ hne]

/-- C9 witness: the amended statement applied at the concrete sequence
[1, 2, 3], which contains neither control token. -/
theorem C9_amended_witness :
    isCompressed [1, 2, 3] none = false ∧ extractBody [1, 2, 3] none = [1, 2, 3] :=
  ⟨(C9_amended [1, 2, 3]).1 (by decide), (C9_amended [1, 2, 3]).2 (by decide)⟩

/-! ## C3: truncated dictionary streams -/

/-- C3 counterexample: on the stream [DICT_START, M, 5, 1, 2, DICT_END, M]
— whose length field promises five definition tokens where only two are
present — the SDK stream processors do not fail at all: both
buildDictionaryMap and extractDictionary detect the overlong length field,
break out of the loop, and silently return the dictionary parsed so far
(here empty), with no error and no reported offset. -/
theorem C3_counterexample :
    buildDictionaryMap
      [0xFFFFFFF0, 0xFFFF0000, 5, 1, 2, 0xFFFFFFF1, 0xFFFF0000] = [] ∧
    extractDictionary
      [0xFFFFFFF0, 0xFFFF0000, 5, 1, 2, 0xFFFFFFF1, 0xFFFF0000] none = [] :=
  ⟨by decide, by decide⟩

/-- C3 (amended): on the corrupt stream [DICT_START, M, 5, 1, 2,
DICT_END, M] the core decompressor (modelled from the spec) fails fatally
with Truncated at index 5, the offset at which the defect is detected
(the dictionary-end token appears where the length field promised a third
definition token); the SDK dictionary parsers, by contrast, stop at the
defective entry and return the entries parsed so far without an error. -/
theorem C3_truncated_amended :
    decompressSpec [0xFFFFFFF0, 0xFFFF0000, 5, 1, 2, 0xFFFFFFF1, 0xFFFF0000]
      DEFAULT_CONFIG.dictStartToken DEFAULT_CONFIG.dictEndToken =
      Except.error (DecompressError.truncated 5) ∧
    buildDictionaryMap
      [0xFFFFFFF0, 0xFFFF0000, 5, 1, 2, 0xFFFFFFF1, 0xFFFF0000] = [] ∧
    extractDictionary
      [0xFFFFFFF0, 0xFFFF0000, 5, 1, 2, 0xFFFFFFF1, 0xFFFF0000] none = [] :=
  ⟨by decide, by decide, by decide⟩

/-! ## C4: extraction from well-formed streams -/

/-- C4 counterexample: the stream [DICT_START, M, 1, DE, DICT_END, 42] is
of the claimed form — one entry with meta-token M, length field 1 and the
one-token definition [DE], followed by DICT_END and the body [42]; its
meta-token and length field differ from the dictionary-end token as the
claim requires.  extractDictionary returns the claimed map, but
extractBody cuts at the FIRST dictionary-end token, which here sits inside
the definition, so it does not return the body. -/
theorem C4_counterexample :
    extractDictionary [0xFFFFFFF0, 0xFFFF0000, 1, 0xFFFFFFF1, 0xFFFFFFF1, 42] none =
      [(0xFFFF0000, [0xFFFFFFF1])] ∧
    extractBody [0xFFFFFFF0, 0xFFFF0000, 1, 0xFFFFFFF1, 0xFFFFFFF1, 42] none =
      [0xFFFFFFF1, 42] ∧
    extractBody [0xFFFFFFF0, 0xFFFF0000, 1, 0xFFFFFFF1, 0xFFFFFFF1, 42] none ≠ [42] :=
  ⟨by decide, by decide, by decide⟩

/-- C4 (amended): for every stream [DICT_START, m_0, len_0, def_0, ...,
DICT_END, body] in which each def_i has exactly len_i tokens, the
meta-tokens are pairwise distinct, and no meta-token, length field OR
DEFINITION TOKEN equals the dictionary-end token, extractDictionary
returns exactly the entry map and extractBody returns exactly the body
following DICT_END. -/
theorem C4_wellformed_extract (entries : DictMap) (body : List Nat)
    (hnodup : (entries.map Prod.fst).Nodup)
    (hm : ∀ e ∈ entries, e.1 ≠ DEFAULT_CONFIG.dictEndToken)
    (hlen : ∀ e ∈ entries, e.2.length ≠ DEFAULT_CONFIG.dictEndToken)
    (hd : ∀ e ∈ entries, ∀ t ∈ e.2, t ≠ DEFAULT_CONFIG.dictEndToken) :
    extractDictionary
      (DEFAULT_CONFIG.dictStartToken ::
        (entriesFlat entries ++ DEFAULT_CONFIG.dictEndToken :: body)) none = entries ∧
    extractBody
      (DEFAULT_CONFIG.dictStartToken ::
        (entriesFlat entries ++ DEFAULT_CONFIG.dictEndToken :: body)) none = body := by
  constructor
  · rw [extractDictionary_none, findTokenIdx_cons_self]
    show sdkParseEntries DEFAULT_CONFIG.dictEndToken
      (entriesFlat entries ++ DEFAULT_CONFIG.dictEndToken :: body) = entries
    unfold sdkParseEntries
    rw [sdkParseEntriesF_wire DEFAULT_CONFIG.dictEndToken entries body _ []
      (le_refl _) hm (by intro e _ a ha; simp at ha) hnodup]
    rfl
  · rw [extractBody_none]
    have hpre : ∀ t ∈ DEFAULT_CONFIG.dictStartToken :: entriesFlat entries,
        t ≠ DEFAULT_CONFIG.dictEndToken := by
      intro t ht
      rcases List.mem_cons.mp ht with rfl | hin
      · decide
      · exact entriesFlat_ne_de _ entries hm hlen hd t hin
    have hfi := findTokenIdx_append DEFAULT_CONFIG.dictEndToken
      (DEFAULT_CONFIG.dictStartToken :: entriesFlat entries) body hpre
    simp only [List.cons_append] at hfi
    rw [hfi]
    show (DEFAULT_CONFIG.dictStartToken ::
      (entriesFlat entries ++ DEFAULT_CONFIG.dictEndToken :: body)).drop
        ((entriesFlat entries).length + 1 + 1) = body
    rw [List.drop_succ_cons]
    have hdd : (entriesFlat entries ++ DEFAULT_CONFIG.dictEndToken :: body).drop
        ((entriesFlat entries).length + 1) =
        ((entriesFlat entries ++ DEFAULT_CONFIG.dictEndToken :: body).drop
          (entriesFlat entries).length).drop 1 := by
      rw [List.drop_drop]
    rw [hdd, List.drop_left]
    rfl

/-- C4 witness: the amended statement applied to the concrete stream of
the SDK test suite — one entry mapping the first meta-token to [1, 2, 3]
and the body [M, 4, 5]. -/
theorem C4_wellformed_extract_witness :
    extractDictionary
      (DEFAULT_CONFIG.dictStartToken ::
        (entriesFlat [(0xFFFF0000, [1, 2, 3])] ++
          DEFAULT_CONFIG.dictEndToken :: [0xFFFF0000, 4, 5])) none =
      [(0xFFFF0000, [1, 2, 3])] ∧
    extractBody
      (DEFAULT_CONFIG.dictStartToken ::
        (entriesFlat [(0xFFFF0000, [1, 2, 3])] ++
          DEFAULT_CONFIG.dictEndToken :: [0xFFFF0000, 4, 5])) none =
      [0xFFFF0000, 4, 5] :=
  C4_wellformed_extract [(0xFFFF0000, [1, 2, 3])] [0xFFFF0000, 4, 5]
    (by decide) (by decide) (by decide) (by decide)

/-! ## C5: the streaming compressor contract -/

theorem addAll_unfinished (chunks : List (List Nat)) :
    ∀ (b : List Nat) (k : Nat),
      addAll ⟨b, false, k⟩ chunks = Except.ok ⟨b ++ chunks.flatten, false, k⟩ := by
  induction chunks with
  | nil =>
    intro b k
    simp [addAll]
  | cons c rest ih =>
    intro b k
    show addAll ⟨b, false, k⟩ (c :: rest) = _
    unfold addAll addChunk
    simp only [if_neg (by simp : ¬ (false = true))]
    rw [ih (b ++ normalizeTokens c) k]
    simp [normalizeTokens, List.append_assoc]

/-- C5: a streaming compressor accumulates every chunk passed to addChunk
in call order without invoking the core; finish invokes the core
compression exactly once, on the accumulated input; after finish, every
further addChunk fails with the add-after-finish error, every further
finish fails with the finish-twice error, and isFinished is true. -/
theorem C5_streaming_contract (chunks : List (List Nat)) (cfg : CoreConfig)
    (extra : List Nat) :
    addAll newStreamState chunks = Except.ok ⟨chunks.flatten, false, 0⟩ ∧
    finishStream cfg ⟨chunks.flatten, false, 0⟩ =
      Except.ok (⟨chunks.flatten, true, 1⟩, compressCore chunks.flatten cfg) ∧
    addChunk ⟨chunks.flatten, true, 1⟩ extra =
      Except.error StreamingError.addAfterFinish ∧
    finishStream cfg ⟨chunks.flatten, true, 1⟩ =
      Except.error StreamingError.finishTwice ∧
    isFinished ⟨chunks.flatten, true, 1⟩ = true := by
  refine ⟨?_, rfl, rfl, rfl, rfl⟩
  have h := addAll_unfinished chunks [] 0
  simpa [newStreamState] using h

/-! ## C6: determinism of pool-dispatched compression -/

theorem getD_replicate {α : Type} (a : α) :
    ∀ (n i : Nat), (List.replicate n a).getD i a = a := by
  intro n
  induction n with
  | zero => intro i; cases i <;> rfl
  | succ n ih =>
    intro i
    cases i with
    | zero => rfl
    | succ i =>
      show (List.replicate n a).getD i a = a
      exact ih i

/-- C6: compress is deterministic and pool dispatch cannot change it —
for identical input tokens and configuration, dispatching through a worker
pool of any size, at any rotation position, produces exactly the result of
the direct core call, so any two dispatches agree. -/
theorem C6_deterministic_worker_dispatch
    (n1 i1 n2 i2 : Nat) (tokens : List Nat) (cfg : CoreConfig) :
    workerPoolCompress n1 i1 tokens cfg = compressCore tokens cfg ∧
    workerPoolCompress n1 i1 tokens cfg = workerPoolCompress n2 i2 tokens cfg := by
  have hrun : ∀ n i, workerPoolCompress n i tokens cfg = compressCore tokens cfg := by
    intro n i
    unfold workerPoolCompress poolWorkers
    rw [getD_replicate]
    rfl
  exact ⟨hrun n1 i1, (hrun n1 i1).trans (hrun n2 i2).symm⟩

/-! ## C7: the default configuration -/

/-- C7: the default configuration carries exactly the documented values,
mergeConfig uses each of them whenever the caller omits the corresponding
option (mergeConfig of nothing is DEFAULT_CONFIG itself, and each resolved
field is the user's value with the default as fallback), and
discoverPatterns defaults its length bounds to 2 and 8. -/
theorem C7_default_config :
    DEFAULT_CONFIG.minSubsequenceLength = 2 ∧
    DEFAULT_CONFIG.maxSubsequenceLength = 8 ∧
    DEFAULT_CONFIG.selectionMode = SelectionMode.greedy ∧
    DEFAULT_CONFIG.beamWidth = 8 ∧
    DEFAULT_CONFIG.hierarchicalEnabled = true ∧
    DEFAULT_CONFIG.hierarchicalMaxDepth = 3 ∧
    DEFAULT_CONFIG.verify = false ∧
    DEFAULT_CONFIG.dictStartToken = 0xFFFFFFF0 ∧
    DEFAULT_CONFIG.dictEndToken = 0xFFFFFFF1 ∧
    DEFAULT_CONFIG.nextMetaToken = 0xFFFF0000 ∧
    mergeConfig none = DEFAULT_CONFIG ∧
    (∀ c : CompressionConfig,
      (mergeConfig (some c)).minSubsequenceLength = c.minSubsequenceLength.getD 2 ∧
      (mergeConfig (some c)).maxSubsequenceLength = c.maxSubsequenceLength.getD 8 ∧
      (mergeConfig (some c)).selectionMode = c.selectionMode.getD SelectionMode.greedy ∧
      (mergeConfig (some c)).beamWidth = c.beamWidth.getD 8 ∧
      (mergeConfig (some c)).hierarchicalEnabled = c.hierarchicalEnabled.getD true ∧
      (mergeConfig (some c)).hierarchicalMaxDepth = c.hierarchicalMaxDepth.getD 3 ∧
      (mergeConfig (some c)).verify = c.verify.getD false ∧
      (mergeConfig (some c)).dictStartToken = c.dictStartToken.getD 0xFFFFFFF0 ∧
      (mergeConfig (some c)).dictEndToken = c.dictEndToken.getD 0xFFFFFFF1 ∧
      (mergeConfig (some c)).nextMetaToken = c.nextMetaToken.getD 0xFFFF0000) ∧
    (∀ tokens : List Nat,
      discoverPatterns tokens none none = discover_patterns tokens 2 8) :=
  ⟨rfl, rfl, rfl, rfl, rfl, rfl, rfl, rfl, rfl, rfl, rfl,
   fun _ => ⟨rfl, rfl, rfl, rfl, rfl, rfl, rfl, rfl, rfl, rfl⟩,
   fun _ => rfl⟩

/-! ## C10: processInChunks -/

theorem chunkCallsF_empty (c : Nat) (f : Nat) (i : Nat) :
    chunkCallsF c f [] i = [] := by
  cases f <;> rfl

theorem chunkCallsF_length (c : Nat) :
    ∀ (f : Nat) (l : List Nat) (i : Nat), l.length ≤ f →
      (chunkCallsF c f l i).length = (l.length + c) / (c + 1) := by
  intro f
  induction f with
  | zero =>
    intro l i hf
    have hl : l = [] := List.length_eq_zero.mp (Nat.le_zero.mp hf)
    subst hl
    simp [chunkCallsF, Nat.div_eq_of_lt (by omega : c < c + 1)]
  | succ f ih =>
    intro l i hf
    cases l with
    | nil => simp [chunkCallsF, Nat.div_eq_of_lt (by omega : c < c + 1)]
    | cons t rest =>
      show ((((t :: rest).take (c + 1), i)) ::
        chunkCallsF c f ((t :: rest).drop (c + 1)) (i + (c + 1))).length = _
      rw [List.length_cons,
        ih ((t :: rest).drop (c + 1)) (i + (c + 1))
          (by simp only [List.length_drop, List.length_cons] at hf ⊢; omega)]
      rw [List.length_drop, List.length_cons]
      set n := rest.length + 1 with hn
      have hsplit : n + c = (n - 1) + (c + 1) := by omega
      rw [hsplit, Nat.add_div_right _ (by omega : 0 < c + 1)]
      have harg : n - (c + 1) + c = (n - 1) ∨ (n - (c + 1) + c = c ∧ n - 1 < c + 1) := by
        omega
      rcases harg with h1 | ⟨h2, h3⟩
      · rw [h1]
      · rw [h2, Nat.div_eq_of_lt (by omega : c < c + 1),
          Nat.div_eq_of_lt h3]

theorem chunkCallsF_flatten (c : Nat) :
    ∀ (f : Nat) (l : List Nat) (i : Nat), l.length ≤ f →
      ((chunkCallsF c f l i).map Prod.fst).flatten = l := by
  intro f
  induction f with
  | zero =>
    intro l i hf
    have hl : l = [] := List.length_eq_zero.mp (Nat.le_zero.mp hf)
    subst hl
    rfl
  | succ f ih =>
    intro l i hf
    cases l with
    | nil => rfl
    | cons t rest =>
      have hshape : chunkCallsF c (f + 1) (t :: rest) i =
          ((t :: rest).take (c + 1), i) ::
            chunkCallsF c f ((t :: rest).drop (c + 1)) (i + (c + 1)) := rfl
      rw [hshape, List.map_cons, List.flatten_cons,
        ih ((t :: rest).drop (c + 1)) (i + (c + 1))
          (by simp only [List.length_drop, List.length_cons] at hf ⊢; omega)]
      exact List.take_append_drop (c + 1) (t :: rest)

theorem chunkCallsF_full_chunks (c : Nat) :
    ∀ (f : Nat) (l : List Nat) (i : Nat), l.length ≤ f →
      ∀ j, j + 1 < (chunkCallsF c f l i).length →
        ((chunkCallsF c f l i).getD j ([], 0)).1.length = c + 1 := by
  intro f
  induction f with
  | zero =>
    intro l i hf j hj
    have hl : l = [] := List.length_eq_zero.mp (Nat.le_zero.mp hf)
    subst hl
    simp [chunkCallsF] at hj
  | succ f ih =>
    intro l i hf j hj
    cases l with
    | nil => simp [chunkCallsF] at hj
    | cons t rest =>
      have hshape : chunkCallsF c (f + 1) (t :: rest) i =
          ((t :: rest).take (c + 1), i) ::
            chunkCallsF c f ((t :: rest).drop (c + 1)) (i + (c + 1)) := rfl
      rw [hshape] at hj ⊢
      cases j with
      | zero =>
        rw [List.getD_cons_zero]
        have htail : chunkCallsF c f ((t :: rest).drop (c + 1)) (i + (c + 1)) ≠ [] := by
          intro hnil
          rw [List.length_cons, hnil] at hj
          simp at hj
        have hdrop : (t :: rest).drop (c + 1) ≠ [] := by
          intro hnil
          rw [hnil, chunkCallsF_empty] at htail
          exact htail rfl
        have hlen : c + 1 < (t :: rest).length := by
          by_contra hcon
          exact hdrop (List.drop_eq_nil_iff.mpr (by omega))
        simp only [List.length_cons] at hlen
        simp only [List.length_take, List.length_cons]
        omega
      | succ j =>
        rw [List.getD_cons_succ]
        exact ih ((t :: rest).drop (c + 1)) (i + (c + 1))
          (by simp only [List.length_drop, List.length_cons] at hf ⊢; omega) j
          (by
            rw [List.length_cons] at hj
            omega)

theorem chunkCallsF_indices (c : Nat) :
    ∀ (f : Nat) (l : List Nat) (i : Nat), l.length ≤ f →
      ∀ j, j < (chunkCallsF c f l i).length →
        ((chunkCallsF c f l i).getD j ([], 0)).2 = i + j * (c + 1) := by
  intro f
  induction f with
  | zero =>
    intro l i hf j hj
    have hl : l = [] := List.length_eq_zero.mp (Nat.le_zero.mp hf)
    subst hl
    simp [chunkCallsF] at hj
  | succ f ih =>
    intro l i hf j hj
    cases l with
    | nil => simp [chunkCallsF] at hj
    | cons t rest =>
      have hshape : chunkCallsF c (f + 1) (t :: rest) i =
          ((t :: rest).take (c + 1), i) ::
            chunkCallsF c f ((t :: rest).drop (c + 1)) (i + (c + 1)) := rfl
      rw [hshape] at hj ⊢
      cases j with
      | zero => simp
      | succ j =>
        rw [List.getD_cons_succ]
        rw [ih ((t :: rest).drop (c + 1)) (i + (c + 1))
          (by simp only [List.length_drop, List.length_cons] at hf ⊢; omega) j
          (by rw [List.length_cons] at hj; omega)]
        ring

/-- C10: for every token input and every positive chunk size c,
processInChunks performs exactly ceil(n / c) callback invocations; the
chunks, concatenated in invocation order, are the normalized input; every
chunk except possibly the last has length c; and the index passed with
the j-th chunk is its start offset j * c. -/
theorem C10_processInChunks (tokens : List Nat) (c : Nat) (hc : 0 < c) :
    ∃ calls,
      processInChunks tokens c = some calls ∧
      calls.length = (tokens.length + (c - 1)) / c ∧
      (calls.map Prod.fst).flatten = normalizeTokens tokens ∧
      (∀ j, j + 1 < calls.length → (calls.getD j ([], 0)).1.length = c) ∧
      (∀ j, j < calls.length → (calls.getD j ([], 0)).2 = j * c) := by
  obtain ⟨c', rfl⟩ : ∃ c', c = c' + 1 := ⟨c - 1, by omega⟩
  refine ⟨chunkCallsF c' tokens.length tokens 0, rfl, ?_, ?_, ?_, ?_⟩
  · rw [chunkCallsF_length c' tokens.length tokens 0 (le_refl _)]
    norm_num
  · exact chunkCallsF_flatten c' tokens.length tokens 0 (le_refl _)
  · exact chunkCallsF_full_chunks c' tokens.length tokens 0 (le_refl _)
  · intro j hj
    rw [chunkCallsF_indices c' tokens.length tokens 0 (le_refl _) j hj]
    omega

/-- C10 witness: the theorem applied at the ten-token input and chunk
size 3 of the SDK test suite (four invocations, last chunk of length 1,
indices 0, 3, 6, 9). -/
theorem C10_processInChunks_witness :
    0 < 3 ∧
    ∃ calls,
      processInChunks [1, 2, 3, 4, 5, 6, 7, 8, 9, 10] 3 = some calls ∧
      calls.length = (([1, 2, 3, 4, 5, 6, 7, 8, 9, 10] : List Nat).length + (3 - 1)) / 3 ∧
      (calls.map Prod.fst).flatten = normalizeTokens [1, 2, 3, 4, 5, 6, 7, 8, 9, 10] ∧
      (∀ j, j + 1 < calls.length → (calls.getD j ([], 0)).1.length = 3) ∧
      (∀ j, j < calls.length → (calls.getD j ([], 0)).2 = j * 3) :=
  ⟨by decide, C10_processInChunks [1, 2, 3, 4, 5, 6, 7, 8, 9, 10] 3 (by decide)⟩

/-! ## Round-trip machinery: parsing the serialized dictionary -/

/-- readDef reads back exactly the definition it is pointed at when no
definition token equals the dictionary-end token. -/
theorem readDef_append (de : Nat) (d : List Nat) :
    ∀ (rest : List Nat) (pos : Nat), (∀ t ∈ d, t ≠ de) →
      readDef de d.length (d ++ rest) pos = Except.ok (d, rest) := by
  induction d with
  | nil => intro rest pos _; rfl
  | cons t ts ih =>
    intro rest pos hd
    have ht : t ≠ de := hd t (List.mem_cons_self _ _)
    show readDef de (ts.length + 1) (t :: (ts ++ rest)) pos = _
    simp only [readDef, if_neg ht]
    rw [ih rest (pos + 1) (fun u hu => hd u (List.mem_cons_of_mem _ hu))]

/-- The strict core parser inverts entriesFlat: on a well-formed wire
dictionary it returns exactly the serialized entries and the body. -/
theorem parseEntriesF_wire (de : Nat) (entries : DictMap) :
    ∀ (body : List Nat) (f pos : Nat),
      entries.length < f →
      (∀ e ∈ entries, e.1 ≠ de) →
      (∀ e ∈ entries, ∀ t ∈ e.2, t ≠ de) →
      parseEntriesF de f (entriesFlat entries ++ de :: body) pos =
        Except.ok (entries, body) := by
  induction entries with
  | nil =>
    intro body f pos hf _ _
    obtain ⟨f', rfl⟩ : ∃ f', f = f' + 1 := ⟨f - 1, by omega⟩
    show parseEntriesF de (f' + 1) (de :: body) pos = _
    simp [parseEntriesF]
  | cons e rest ih =>
    obtain ⟨m, d⟩ := e
    intro body f pos hf hm hd
    obtain ⟨f', rfl⟩ : ∃ f', f = f' + 1 := ⟨f - 1, by omega⟩
    have hflat : entriesFlat ((m, d) :: rest) ++ de :: body =
        m :: d.length :: (d ++ (entriesFlat rest ++ de :: body)) := by
      simp [entriesFlat, List.append_assoc]
    rw [hflat]
    have hmne : m ≠ de := hm (m, d) (List.mem_cons_self _ _)
    simp only [parseEntriesF, if_neg hmne]
    rw [readDef_append de d (entriesFlat rest ++ de :: body) (pos + 2)
      (hd (m, d) (List.mem_cons_self _ _))]
    simp only [ih body f' (pos + 2 + d.length)
      (by simp only [List.length_cons] at hf; omega)
      (fun e he => hm e (List.mem_cons_of_mem _ he))
      (fun e he => hd e (List.mem_cons_of_mem _ he))]

theorem length_le_entriesFlat (entries : DictMap) :
    entries.length ≤ (entriesFlat entries).length := by
  induction entries with
  | nil => simp [entriesFlat]
  | cons e rest ih =>
    obtain ⟨m, d⟩ := e
    simp only [entriesFlat, List.length_cons, List.length_append]
    omega

/-! ## Round-trip machinery: expansion -/

theorem expandTok_none (M : DictMap) (dep t : Nat)
    (h : lookupDict M t = none) : expandTok M dep t = Except.ok [t] := by
  cases dep <;> simp [expandTok, h]

/-- The fold inside expandTok is exactly expandSeq at the same depth. -/
theorem expandFold_eq (M : DictMap) (dep : Nat) (p : List Nat) :
    p.foldr
      (fun x acc =>
        match expandTok M dep x with
        | Except.error e => Except.error e
        | Except.ok ex =>
          match acc with
          | Except.error e2 => Except.error e2
          | Except.ok r => Except.ok (ex ++ r))
      (Except.ok []) = expandSeq M dep p := by
  induction p with
  | nil => rfl
  | cons t ts ih =>
    rw [List.foldr_cons, ih]
    rfl

/-- A token with an entry expands to the expansion of its definition one
level deeper. -/
theorem expandTok_some (M : DictMap) (dep m : Nat) (d : List Nat)
    (h : lookupDict M m = some d) :
    expandTok M (dep + 1) m = expandSeq M dep d := by
  simp only [expandTok, h]
  exact expandFold_eq M dep d

theorem expandSeq_none (M : DictMap) (dep : Nat) (l : List Nat)
    (h : ∀ t ∈ l, lookupDict M t = none) : expandSeq M dep l = Except.ok l := by
  induction l with
  | nil => rfl
  | cons t ts ih =>
    show expandSeq M dep (t :: ts) = _
    unfold expandSeq
    rw [expandTok_none M dep t (h t (List.mem_cons_self _ _)),
      ih (fun u hu => h u (List.mem_cons_of_mem _ hu))]
    rfl

theorem expandSeq_append (M : DictMap) (dep : Nat) (a : List Nat) :
    ∀ (b ra rb : List Nat),
      expandSeq M dep a = Except.ok ra → expandSeq M dep b = Except.ok rb →
      expandSeq M dep (a ++ b) = Except.ok (ra ++ rb) := by
  induction a with
  | nil =>
    intro b ra rb ha hb
    injection ha with h
    subst h
    simpa using hb
  | cons t ts ih =>
    intro b ra rb ha hb
    unfold expandSeq at ha
    rw [List.cons_append]
    unfold expandSeq
    cases het : expandTok M dep t with
    | error e => rw [het] at ha; cases ha
    | ok et =>
      rw [het] at ha
      cases hes : expandSeq M dep ts with
      | error e => rw [hes] at ha; cases ha
      | ok rts =>
        rw [hes] at ha
        have hra : ra = et ++ rts := by cases ha; rfl
        subst hra
        rw [ih b rts rb hes hb]
        simp [List.append_assoc]

/-- Splicing identity: a gap, a window, and the remainder reassemble the
list. -/
theorem take_window_drop (rest : List Nat) (g n : Nat) :
    rest.take g ++ ((rest.drop g).take n ++ rest.drop (g + n)) = rest := by
  have h1 : rest.drop (g + n) = (rest.drop g).drop n := by
    rw [List.drop_drop]
  rw [h1, List.take_append_drop, List.take_append_drop]

/-- Inversion of a successful expansion of a cons. -/
theorem expandSeq_cons_inv (M : DictMap) (dep t : Nat) (rest r : List Nat)
    (h : expandSeq M dep (t :: rest) = Except.ok r) :
    ∃ ex rr, expandTok M dep t = Except.ok ex ∧
      expandSeq M dep rest = Except.ok rr ∧ r = ex ++ rr := by
  unfold expandSeq at h
  cases het : expandTok M dep t with
  | error e => rw [het] at h; cases h
  | ok ex =>
    rw [het] at h
    cases hes : expandSeq M dep rest with
    | error e => rw [hes] at h; cases h
    | ok rr =>
      rw [hes] at h
      exact ⟨ex, rr, rfl, rfl, by cases h; rfl⟩

/-- Inversion of a successful expansion of an append. -/
theorem expandSeq_append_inv (M : DictMap) (dep : Nat) (a : List Nat) :
    ∀ (b r : List Nat), expandSeq M dep (a ++ b) = Except.ok r →
      ∃ ra rb, expandSeq M dep a = Except.ok ra ∧
        expandSeq M dep b = Except.ok rb ∧ r = ra ++ rb := by
  induction a with
  | nil => intro b r h; exact ⟨[], r, rfl, h, rfl⟩
  | cons t ts ih =>
    intro b r h
    rw [List.cons_append] at h
    obtain ⟨ex, rr, het, hrest, hr⟩ := expandSeq_cons_inv M dep t (ts ++ b) r h
    obtain ⟨ra, rb, hts, hb, hrr⟩ := ih b rr hrest
    refine ⟨ex ++ ra, rb, ?_, hb, by rw [hr, hrr, List.append_assoc]⟩
    unfold expandSeq
    rw [het, hts]

/-- A successful expansion survives one extra level of depth budget. -/
theorem expandSeq_mono_of_tok (M : DictMap) (dep : Nat)
    (htok : ∀ t r, expandTok M dep t = Except.ok r →
      expandTok M (dep + 1) t = Except.ok r) :
    ∀ (l r : List Nat), expandSeq M dep l = Except.ok r →
      expandSeq M (dep + 1) l = Except.ok r := by
  intro l
  induction l with
  | nil => intro r h; exact h
  | cons t ts ih =>
    intro r h
    obtain ⟨ex, rr, het, hrest, hr⟩ := expandSeq_cons_inv M dep t ts r h
    subst hr
    unfold expandSeq
    rw [htok t ex het, ih rr hrest]

theorem expandTok_mono (M : DictMap) :
    ∀ (dep : Nat) (t : Nat) (r : List Nat),
      expandTok M dep t = Except.ok r → expandTok M (dep + 1) t = Except.ok r := by
  intro dep
  induction dep with
  | zero =>
    intro t r h
    cases hl : lookupDict M t with
    | none =>
      rw [expandTok_none M 0 t hl] at h
      rw [expandTok_none M 1 t hl]
      exact h
    | some d =>
      unfold expandTok at h
      rw [hl] at h
      cases h
  | succ dep ih =>
    intro t r h
    cases hl : lookupDict M t with
    | none =>
      rw [expandTok_none M (dep + 1) t hl] at h
      rw [expandTok_none M (dep + 2) t hl]
      exact h
    | some d =>
      rw [expandTok_some M dep t d hl] at h
      rw [expandTok_some M (dep + 1) t d hl]
      exact expandSeq_mono_of_tok M dep (fun u ru => ih u ru) d r h

theorem expandSeq_mono (M : DictMap) (dep : Nat) :
    ∀ (l r : List Nat), expandSeq M dep l = Except.ok r →
      expandSeq M (dep + 1) l = Except.ok r :=
  expandSeq_mono_of_tok M dep (expandTok_mono M dep)

theorem expandSeq_mono_le (M : DictMap) (k : Nat) :
    ∀ (dep : Nat) (l r : List Nat), expandSeq M dep l = Except.ok r →
      expandSeq M (dep + k) l = Except.ok r := by
  induction k with
  | zero => intro dep l r h; exact h
  | succ k ih =>
    intro dep l r h
    exact expandSeq_mono M (dep + k) l r (ih dep l r h)

/-! ## Round-trip machinery: dictionary lookups and extension -/

theorem lookupDict_append (M N : DictMap) (t : Nat) :
    lookupDict (M ++ N) t =
      (match lookupDict M t with
       | some d => some d
       | none => lookupDict N t) := by
  induction M with
  | nil => rfl
  | cons e rest ih =>
    obtain ⟨k, v⟩ := e
    by_cases hk : k = t
    · simp [lookupDict, hk]
    · simp [lookupDict, hk, ih]

theorem lookupDict_none_of_lt (M : DictMap) (b t : Nat)
    (hM : ∀ e ∈ M, e.1 < b) (ht : b ≤ t) : lookupDict M t = none := by
  induction M with
  | nil => rfl
  | cons e rest ih =>
    obtain ⟨k, v⟩ := e
    unfold lookupDict
    rw [if_neg]
    · exact ih (fun e he => hM e (List.mem_cons_of_mem _ he))
    · have := hM (k, v) (List.mem_cons_self _ _)
      simp only at this
      omega

theorem lookupDict_none_of_ge (N : DictMap) (b t : Nat)
    (hN : ∀ e ∈ N, b ≤ e.1) (ht : t < b) : lookupDict N t = none := by
  induction N with
  | nil => rfl
  | cons e rest ih =>
    obtain ⟨k, v⟩ := e
    unfold lookupDict
    rw [if_neg]
    · exact ih (fun e he => hN e (List.mem_cons_of_mem _ he))
    · have := hN (k, v) (List.mem_cons_self _ _)
      simp only at this
      omega

theorem lookupDict_mem (M : DictMap) (t : Nat) (d : List Nat) :
    lookupDict M t = some d → (t, d) ∈ M := by
  induction M with
  | nil => intro h; cases h
  | cons e rest ih =>
    obtain ⟨k, v⟩ := e
    intro h
    unfold lookupDict at h
    by_cases hk : k = t
    · rw [if_pos hk] at h
      injection h with h2
      subst hk
      subst h2
      exact List.mem_cons_self _ _
    · rw [if_neg hk] at h
      exact List.mem_cons_of_mem _ (ih h)

/-- Two dictionaries that agree token-wise expand a sequence alike. -/
theorem expandSeq_agree (A B : DictMap) (dep : Nat) (b : Nat)
    (htok : ∀ t, t < b → expandTok A dep t = expandTok B dep t) :
    ∀ l, (∀ t ∈ l, t < b) → expandSeq A dep l = expandSeq B dep l := by
  intro l
  induction l with
  | nil => intro _; rfl
  | cons t ts ih =>
    intro hl
    show expandSeq A dep (t :: ts) = expandSeq B dep (t :: ts)
    unfold expandSeq
    rw [htok t (hl t (List.mem_cons_self _ _)),
      ih (fun u hu => hl u (List.mem_cons_of_mem _ hu))]

/-- Appending entries whose meta-tokens lie at or above a bound does not
change the expansion of tokens below the bound (the earlier layers'
dictionary is closed below the bound). -/
theorem expandTok_extend (M N : DictMap) (b : Nat)
    (hM : ∀ e ∈ M, e.1 < b ∧ ∀ t ∈ e.2, t < b)
    (hN : ∀ e ∈ N, b ≤ e.1) :
    ∀ (dep t : Nat), t < b → expandTok (M ++ N) dep t = expandTok M dep t := by
  have hlk : ∀ t, t < b → lookupDict (M ++ N) t = lookupDict M t := by
    intro t ht
    rw [lookupDict_append]
    cases hm : lookupDict M t with
    | some d => rfl
    | none => exact lookupDict_none_of_ge N b t hN ht
  intro dep
  induction dep with
  | zero =>
    intro t ht
    show expandTok (M ++ N) 0 t = expandTok M 0 t
    unfold expandTok
    rw [hlk t ht]
  | succ dep ih =>
    intro t ht
    cases hm : lookupDict M t with
    | none =>
      rw [expandTok_none (M ++ N) (dep + 1) t ((hlk t ht).trans hm),
        expandTok_none M (dep + 1) t hm]
    | some d =>
      rw [expandTok_some (M ++ N) dep t d ((hlk t ht).trans hm),
        expandTok_some M dep t d hm]
      exact expandSeq_agree (M ++ N) M dep b ih d
        (fun u hu => (hM (t, d) (lookupDict_mem M t d hm)).2 u hu)

theorem expandSeq_extend (M N : DictMap) (b : Nat) (dep : Nat)
    (hM : ∀ e ∈ M, e.1 < b ∧ ∀ t ∈ e.2, t < b)
    (hN : ∀ e ∈ N, b ≤ e.1)
    (l : List Nat) (hl : ∀ t ∈ l, t < b) :
    expandSeq (M ++ N) dep l = expandSeq M dep l :=
  expandSeq_agree (M ++ N) M dep b (expandTok_extend M N b hM hN dep) l hl

/-- Undoing one compression pass: if a body expands to the original under
a dictionary in which every occurrence record's meta-token maps to its
pattern, then the pass's emitted body — the input with validated
occurrences replaced by their meta-tokens — expands to the same original
with one more level of depth budget.  This is the layer-reversal of spec
section 4.6: the expander first replaces the pass's meta-tokens by their
patterns and then continues with the earlier layers. -/
theorem expandSeq_bodyGo_layer (M : DictMap)
    (occs : List (Nat × Nat × List Nat)) :
    ∀ (rest out : List Nat) (dep : Nat),
      (∀ o ∈ occs, lookupDict M o.2.1 = some o.2.2) →
      expandSeq M dep rest = Except.ok out →
      expandSeq M (dep + 1) (bodyGo rest occs) = Except.ok out := by
  induction occs with
  | nil =>
    intro rest out dep _ h
    exact expandSeq_mono M dep rest out h
  | cons o occs ih =>
    obtain ⟨g, m, p⟩ := o
    intro rest out dep hoccs h
    show expandSeq M (dep + 1) (bodyGo rest ((g, m, p) :: occs)) = _
    unfold bodyGo
    split
    case isTrue hvalid =>
      obtain ⟨hpne, hpmatch⟩ := hvalid
      have hsplit : rest = rest.take g ++ (p ++ rest.drop (g + p.length)) := by
        conv_lhs => rw [← take_window_drop rest g p.length]
        rw [hpmatch]
      rw [hsplit] at h
      obtain ⟨oa, rb, hoa, hb, hout⟩ :=
        expandSeq_append_inv M dep (rest.take g) _ _ h
      obtain ⟨ob1, ob2, hob1, hob2, hrb⟩ := expandSeq_append_inv M dep p _ _ hb
      have htake : expandSeq M (dep + 1) (rest.take g) = Except.ok oa :=
        expandSeq_mono M dep _ _ hoa
      have hcons : expandSeq M (dep + 1)
          (m :: bodyGo (rest.drop (g + p.length)) occs) =
          Except.ok (ob1 ++ ob2) := by
        unfold expandSeq
        rw [expandTok_some M dep m p (hoccs (g, m, p) (List.mem_cons_self _ _)),
          hob1,
          ih (rest.drop (g + p.length)) ob2 dep
            (fun o ho => hoccs o (List.mem_cons_of_mem _ ho)) hob2]
      have happ := expandSeq_append M (dep + 1) (rest.take g)
        (m :: bodyGo (rest.drop (g + p.length)) occs) oa (ob1 ++ ob2) htake hcons
      rw [happ, hout, hrb]
    case isFalse =>
      exact ih rest out dep (fun o ho => hoccs o (List.mem_cons_of_mem _ ho)) h

/-- Tokens of an emitted body are input tokens or occurrence meta-tokens. -/
theorem bodyGo_tokens (occs : List (Nat × Nat × List Nat)) :
    ∀ (rest : List Nat) (t : Nat), t ∈ bodyGo rest occs →
      t ∈ rest ∨ ∃ o ∈ occs, t = o.2.1 := by
  induction occs with
  | nil => intro rest t ht; exact Or.inl ht
  | cons o occs ih =>
    obtain ⟨g, m, p⟩ := o
    intro rest t ht
    unfold bodyGo at ht
    split at ht
    · rcases List.mem_append.mp ht with h1 | h2
      · exact Or.inl (List.take_subset g rest h1)
      · rcases List.mem_cons.mp h2 with rfl | h3
        · exact Or.inr ⟨(g, t, p), List.mem_cons_self _ _, rfl⟩
        · rcases ih (rest.drop (g + p.length)) t h3 with h4 | ⟨o2, ho2, heq⟩
          · exact Or.inl (List.drop_subset _ rest h4)
          · exact Or.inr ⟨o2, List.mem_cons_of_mem _ ho2, heq⟩
    · rcases ih rest t ht with h4 | ⟨o2, ho2, heq⟩
      · exact Or.inl h4
      · exact Or.inr ⟨o2, List.mem_cons_of_mem _ ho2, heq⟩

/-! ## Round-trip machinery: properties of the emitted plan -/

/-- Meta-tokens assigned by withMetas lie in [nm, nm + number of
selections). -/
theorem withMetas_key_bound (sel : List (List Nat × List Nat)) :
    ∀ (nm : Nat), ∀ e ∈ withMetas nm sel, nm ≤ e.1 ∧ e.1 < nm + sel.length := by
  induction sel with
  | nil =>
    intro nm e he
    simp [withMetas] at he
  | cons pr rest ih =>
    obtain ⟨p, ss⟩ := pr
    intro nm e he
    rcases List.mem_cons.mp he with rfl | hin
    · simp
    · have := ih (nm + 1) e hin
      constructor
      · omega
      · simp only [List.length_cons]
        omega

/-- Every plan entry's meta-token looks up to its own pattern in the
emitted dictionary. -/
theorem withMetas_lookup (sel : List (List Nat × List Nat)) :
    ∀ (nm : Nat), ∀ e ∈ withMetas nm sel,
      lookupDict (dictEntriesOf (withMetas nm sel)) e.1 = some e.2.1 := by
  induction sel with
  | nil =>
    intro nm e he
    simp [withMetas] at he
  | cons pr rest ih =>
    obtain ⟨p, ss⟩ := pr
    intro nm e he
    rcases List.mem_cons.mp he with rfl | hin
    · simp [withMetas, dictEntriesOf, lookupDict]
    · have hge : nm + 1 ≤ e.1 := (withMetas_key_bound rest (nm + 1) e hin).1
      show lookupDict ((nm, p) :: dictEntriesOf (withMetas (nm + 1) rest)) e.1 = _
      unfold lookupDict
      rw [if_neg (by omega)]
      exact ih (nm + 1) e hin

/-- Tokens below the meta range have no entry in the emitted dictionary. -/
theorem withMetas_lookup_lt (sel : List (List Nat × List Nat)) :
    ∀ (nm t : Nat), t < nm →
      lookupDict (dictEntriesOf (withMetas nm sel)) t = none := by
  induction sel with
  | nil => intro nm t _; rfl
  | cons pr rest ih =>
    obtain ⟨p, ss⟩ := pr
    intro nm t ht
    show lookupDict ((nm, p) :: dictEntriesOf (withMetas (nm + 1) rest)) t = none
    unfold lookupDict
    rw [if_neg (by omega)]
    exact ih (nm + 1) t (by omega)

/-- Every plan entry's pattern is a selected pattern. -/
theorem withMetas_pattern (sel : List (List Nat × List Nat)) :
    ∀ (nm : Nat), ∀ e ∈ withMetas nm sel, ∃ pr ∈ sel, e.2.1 = pr.1 := by
  induction sel with
  | nil =>
    intro nm e he
    simp [withMetas] at he
  | cons pr rest ih =>
    obtain ⟨p, ss⟩ := pr
    intro nm e he
    rcases List.mem_cons.mp he with rfl | hin
    · exact ⟨(p, ss), List.mem_cons_self _ _, rfl⟩
    · obtain ⟨pr2, hpr2, heq⟩ := ih (nm + 1) e hin
      exact ⟨pr2, List.mem_cons_of_mem _ hpr2, heq⟩

/-- Every tagged occurrence of a plan carries a plan entry's meta-token
and pattern. -/
theorem planOccs_mem (plan : List (Nat × List Nat × List Nat)) :
    ∀ o ∈ planOccs plan, ∃ e ∈ plan, o.2.1 = e.1 ∧ o.2.2 = e.2.1 := by
  intro o ho
  obtain ⟨e, he, hmem⟩ := List.mem_flatMap.mp ho
  obtain ⟨s, _, hs⟩ := List.mem_map.mp hmem
  exact ⟨e, he, by rw [← hs], by rw [← hs]⟩

theorem mem_insertSorted {α : Type} (le : α → α → Bool) (x : α) :
    ∀ (l : List α) (y : α), y ∈ insertSorted le x l → y = x ∨ y ∈ l := by
  intro l
  induction l with
  | nil =>
    intro y hy
    simp only [insertSorted, List.mem_singleton] at hy
    exact Or.inl hy
  | cons z rest ih =>
    intro y hy
    unfold insertSorted at hy
    split at hy
    · rcases List.mem_cons.mp hy with rfl | hin
      · exact Or.inr (List.mem_cons_self _ _)
      · rcases ih y hin with h | h
        · exact Or.inl h
        · exact Or.inr (List.mem_cons_of_mem _ h)
    · rcases List.mem_cons.mp hy with rfl | hin
      · exact Or.inl rfl
      · exact Or.inr hin

theorem mem_sortBy {α : Type} (le : α → α → Bool) :
    ∀ (l : List α) (y : α), y ∈ sortBy le l → y ∈ l := by
  intro l
  induction l with
  | nil => intro y hy; simp [sortBy] at hy
  | cons x rest ih =>
    intro y hy
    unfold sortBy at hy
    rcases mem_insertSorted le x (sortBy le rest) y hy with rfl | hin
    · exact List.mem_cons_self _ _
    · exact List.mem_cons_of_mem _ (ih y hin)

/-- Gap records keep the meta-token and pattern of some absolute
occurrence. -/
theorem toGaps_mem (l : List (Nat × Nat × List Nat)) :
    ∀ (cur : Nat), ∀ o ∈ toGaps cur l, ∃ s, (s, o.2.1, o.2.2) ∈ l := by
  induction l with
  | nil =>
    intro cur o ho
    simp [toGaps] at ho
  | cons a rest ih =>
    obtain ⟨s, m, p⟩ := a
    intro cur o ho
    rcases List.mem_cons.mp ho with rfl | hin
    · exact ⟨s, List.mem_cons_self _ _⟩
    · obtain ⟨s2, hs2⟩ := ih (s + p.length) o hin
      exact ⟨s2, List.mem_cons_of_mem _ hs2⟩

/-! ## Round-trip machinery: selected patterns come from the input -/

theorem mem_dedupAcc (l : List (List Nat)) :
    ∀ (seen : List (List Nat)) (x : List Nat), x ∈ dedupAcc seen l → x ∈ l := by
  induction l with
  | nil => intro seen x hx; simp [dedupAcc] at hx
  | cons y rest ih =>
    intro seen x hx
    unfold dedupAcc at hx
    split at hx
    · exact List.mem_cons_of_mem _ (ih seen x hx)
    · rcases List.mem_cons.mp hx with rfl | hin
      · exact List.mem_cons_self _ _
      · exact List.mem_cons_of_mem _ (ih (y :: seen) x hin)

/-- Discovered candidates draw their pattern tokens from the input. -/
theorem allCandidates_pattern_subset (T : List Nat) (minL maxL : Nat) :
    ∀ c ∈ allCandidates T minL maxL, ∀ t ∈ c.pattern, t ∈ T := by
  intro c hc t ht
  obtain ⟨L, _, hcL⟩ := List.mem_flatMap.mp hc
  obtain ⟨p, hp, hsome⟩ := List.mem_filterMap.mp hcL
  have hpw : p ∈ windows T L := mem_dedupAcc (windows T L) [] p hp
  obtain ⟨s, _, hps⟩ := List.mem_map.mp hpw
  have hcp : c.pattern = p := by
    by_cases hcond : 2 ≤ (greedyOccs T p).length ∧ compressible L (greedyOccs T p).length
    · rw [if_pos hcond] at hsome
      cases hsome
      rfl
    · rw [if_neg hcond] at hsome
      cases hsome
  rw [hcp, ← hps] at ht
  exact List.drop_subset s T (List.take_subset L (T.drop s) ht)

/-- Selected patterns are candidate patterns. -/
theorem selectGo_pattern (cands : List Candidate) :
    ∀ (covered : List (Nat × Nat)), ∀ pr ∈ selectGo cands covered,
      ∃ c ∈ cands, pr.1 = c.pattern := by
  induction cands with
  | nil =>
    intro covered pr hpr
    simp [selectGo] at hpr
  | cons c rest ih =>
    intro covered pr hpr
    unfold selectGo at hpr
    simp only [] at hpr
    split at hpr
    · rcases List.mem_cons.mp hpr with rfl | hin
      · exact ⟨c, List.mem_cons_self _ _, rfl⟩
      · obtain ⟨c2, hc2, heq⟩ := ih _ pr hin
        exact ⟨c2, List.mem_cons_of_mem _ hc2, heq⟩
    · obtain ⟨c2, hc2, heq⟩ := ih covered pr hpr
      exact ⟨c2, List.mem_cons_of_mem _ hc2, heq⟩

theorem getD_mem_or {α : Type} (l : List α) :
    ∀ (i : Nat) (d : α), l.getD i d = d ∨ l.getD i d ∈ l := by
  induction l with
  | nil =>
    intro i d
    left
    cases i <;> rfl
  | cons x rest ih =>
    intro i d
    cases i with
    | zero =>
      right
      rw [List.getD_cons_zero]
      exact List.mem_cons_self _ _
    | succ i =>
      rw [List.getD_cons_succ]
      rcases ih i d with h | h
      · exact Or.inl h
      · exact Or.inr (List.mem_cons_of_mem _ h)

theorem headD_mem_or {α : Type} (l : List α) (d : α) :
    l.headD d = d ∨ l.headD d ∈ l := by
  cases l with
  | nil => exact Or.inl rfl
  | cons x rest => exact Or.inr (List.mem_cons_self _ _)

/-- Every weighted interval carries a candidate's pattern. -/
theorem occIntervals_pattern (cands : List Candidate) :
    ∀ o ∈ occIntervals cands, ∃ c ∈ cands, o.pattern = c.pattern := by
  intro o ho
  obtain ⟨c, hc, hmem⟩ := List.mem_flatMap.mp ho
  obtain ⟨s, _, hs⟩ := List.mem_map.mp hmem
  exact ⟨c, hc, by rw [← hs]⟩

/-- The DP choice only ever selects intervals from the table or the new
interval itself. -/
theorem wisBest_mem (inp : List OccInterval)
    (st : List OccInterval × List (Int × List OccInterval)) (x : OccInterval)
    (hst : ∀ e ∈ st.2, ∀ o ∈ e.2, o ∈ inp) (hx : x ∈ inp) :
    ∀ o ∈ (wisBest st x).2, o ∈ inp := by
  intro o ho
  unfold wisBest at ho
  split at ho
  · rcases List.mem_cons.mp ho with rfl | h2
    · exact hx
    · rcases getD_mem_or st.2 (st.1.length - predCount st.1 x.start)
        ((0 : Int), ([] : List OccInterval)) with hd | hmem
      · rw [hd] at h2
        cases h2
      · exact hst _ hmem o h2
  · rcases headD_mem_or st.2 ((0 : Int), ([] : List OccInterval)) with hd | hmem
    · rw [hd] at ho
      cases ho
    · exact hst _ hmem o ho

/-- Every interval recorded anywhere in the DP table came from the input
interval list. -/
theorem wis_foldl_mem (inp : List OccInterval) :
    ∀ (l : List OccInterval) (st : List OccInterval × List (Int × List OccInterval)),
      (∀ e ∈ st.2, ∀ o ∈ e.2, o ∈ inp) →
      (∀ o ∈ l, o ∈ inp) →
      ∀ e ∈ (l.foldl wisStep st).2, ∀ o ∈ e.2, o ∈ inp := by
  intro l
  induction l with
  | nil => intro st hst _ e he; exact hst e he
  | cons x rest ih =>
    intro st hst hl e he
    rw [List.foldl_cons] at he
    refine ih (wisStep st x) ?_ (fun o ho => hl o (List.mem_cons_of_mem _ ho)) e he
    intro e2 he2 o ho
    unfold wisStep at he2
    rcases List.mem_cons.mp he2 with rfl | hin
    · exact wisBest_mem inp st x hst (hl x (List.mem_cons_self _ _)) o ho
    · exact hst e2 hin o ho

theorem insertOcc_mem (p : List Nat) (s : Nat) :
    ∀ (acc : List (List Nat × List Nat)) (pr : List Nat × List Nat),
      pr ∈ insertOcc p s acc → pr.1 = p ∨ ∃ pr0 ∈ acc, pr.1 = pr0.1 := by
  intro acc
  induction acc with
  | nil =>
    intro pr hpr
    left
    have hpr2 : pr = (p, [s]) := by simpa [insertOcc] using hpr
    rw [hpr2]
  | cons e rest ih =>
    obtain ⟨q, ss⟩ := e
    intro pr hpr
    unfold insertOcc at hpr
    split at hpr
    · rcases List.mem_cons.mp hpr with rfl | h2
      · exact Or.inr ⟨(q, ss), List.mem_cons_self _ _, rfl⟩
      · exact Or.inr ⟨pr, List.mem_cons_of_mem _ h2, rfl⟩
    · rcases List.mem_cons.mp hpr with rfl | h2
      · exact Or.inr ⟨(q, ss), List.mem_cons_self _ _, rfl⟩
      · rcases ih pr h2 with h | ⟨pr0, h0, he⟩
        · exact Or.inl h
        · exact Or.inr ⟨pr0, List.mem_cons_of_mem _ h0, he⟩

theorem groupByPattern_pattern :
    ∀ (l : List OccInterval) (acc : List (List Nat × List Nat))
      (pr : List Nat × List Nat),
      pr ∈ l.foldl (fun acc o => insertOcc o.pattern o.start acc) acc →
      (∃ o ∈ l, pr.1 = o.pattern) ∨ ∃ pr0 ∈ acc, pr.1 = pr0.1 := by
  intro l
  induction l with
  | nil =>
    intro acc pr hpr
    exact Or.inr ⟨pr, hpr, rfl⟩
  | cons x rest ih =>
    intro acc pr hpr
    rw [List.foldl_cons] at hpr
    rcases ih (insertOcc x.pattern x.start acc) pr hpr with ⟨o, ho, he⟩ | ⟨pr0, h0, he⟩
    · exact Or.inl ⟨o, List.mem_cons_of_mem _ ho, he⟩
    · rcases insertOcc_mem x.pattern x.start acc pr0 h0 with h | ⟨pr1, h1, he1⟩
      · exact Or.inl ⟨x, List.mem_cons_self _ _, by rw [he, h]⟩
      · exact Or.inr ⟨pr1, h1, by rw [he, he1]⟩

/-- Patterns selected by the optimal mode are candidate patterns. -/
theorem selectOptimal_pattern (cands : List Candidate) :
    ∀ pr ∈ selectOptimal cands, ∃ c ∈ cands, pr.1 = c.pattern := by
  intro pr hpr
  unfold selectOptimal groupByPattern at hpr
  have hchosen : ∀ o ∈ ((((sortBy intervalByEnd (occIntervals cands)).foldl wisStep
      ([], [((0 : Int), ([] : List OccInterval))])).2.headD (0, [])).2),
      o ∈ occIntervals cands := by
    intro o ho
    rcases headD_mem_or (((sortBy intervalByEnd (occIntervals cands)).foldl wisStep
        ([], [((0 : Int), ([] : List OccInterval))])).2)
        ((0 : Int), ([] : List OccInterval)) with hd | hmem
    · rw [hd] at ho
      cases ho
    · refine wis_foldl_mem (occIntervals cands) _ _ ?_ ?_ _ hmem o ho
      · intro e he o2 ho2
        have he2 : e = ((0 : Int), ([] : List OccInterval)) := by simpa using he
        rw [he2] at ho2
        cases ho2
      · exact fun o2 ho2 => mem_sortBy intervalByEnd _ o2 ho2
  rcases groupByPattern_pattern _ [] pr hpr with ⟨o, ho, he⟩ | ⟨pr0, h0, _⟩
  · obtain ⟨c, hc, he2⟩ := occIntervals_pattern cands o (hchosen o ho)
    exact ⟨c, hc, by rw [he, he2]⟩
  · cases h0

/-- Expansion of a beam state only adds the expanding candidate's
pattern. -/
theorem beamExpand_chosen (c : Candidate) (st : BeamState) :
    ∀ st2 ∈ beamExpand c st, ∀ pr ∈ st2.chosen,
      pr.1 = c.pattern ∨ pr ∈ st.chosen := by
  intro st2 hst2 pr hpr
  unfold beamExpand at hst2
  simp only [] at hst2
  split at hst2
  · rcases List.mem_cons.mp hst2 with rfl | h2
    · rcases List.mem_append.mp hpr with h3 | h4
      · exact Or.inr h3
      · left
        have hpr2 : pr = (c.pattern,
            (pickOccs c.pattern.length st.covered c.positions).1) := by
          simpa using h4
        rw [hpr2]
    · have hst3 : st2 = st := by simpa using h2
      rw [hst3] at hpr
      exact Or.inr hpr
  · have hst3 : st2 = st := by simpa using hst2
    rw [hst3] at hpr
    exact Or.inr hpr

/-- Every state surviving beam search only holds candidate patterns. -/
theorem beam_foldl_chosen (allc : List Candidate) (width : Nat) :
    ∀ (l : List Candidate) (states : List BeamState),
      (∀ c ∈ l, c ∈ allc) →
      (∀ st ∈ states, ∀ pr ∈ st.chosen, ∃ c ∈ allc, pr.1 = c.pattern) →
      ∀ st ∈ l.foldl (beamStep width) states, ∀ pr ∈ st.chosen,
        ∃ c ∈ allc, pr.1 = c.pattern := by
  intro l
  induction l with
  | nil => intro states _ hstates st hst; exact hstates st hst
  | cons c rest ih =>
    intro states hl hstates st hst
    rw [List.foldl_cons] at hst
    refine ih (beamStep width states c)
      (fun c2 hc2 => hl c2 (List.mem_cons_of_mem _ hc2)) ?_ st hst
    intro st2 hst2 pr hpr
    have h1 : st2 ∈ sortBy beamStateLE (states.flatMap (beamExpand c)) :=
      List.take_subset width _ hst2
    have h2 : st2 ∈ states.flatMap (beamExpand c) := mem_sortBy _ _ _ h1
    obtain ⟨st0, hst0, hst2b⟩ := List.mem_flatMap.mp h2
    rcases beamExpand_chosen c st0 st2 hst2b pr hpr with h | h
    · exact ⟨c, hl c (List.mem_cons_self _ _), h⟩
    · exact hstates st0 hst0 pr h

/-- Patterns selected by the beam mode are candidate patterns. -/
theorem selectBeam_pattern (width : Nat) (cands : List Candidate) :
    ∀ pr ∈ selectBeam width cands, ∃ c ∈ cands, pr.1 = c.pattern := by
  intro pr hpr
  unfold selectBeam at hpr
  rcases headD_mem_or (cands.foldl (beamStep width) [⟨[], [], 0⟩])
      (⟨[], [], 0⟩ : BeamState) with hd | hmem
  · rw [hd] at hpr
    cases hpr
  · refine beam_foldl_chosen cands width cands [⟨[], [], 0⟩]
      (fun c hc => hc) ?_ _ hmem pr hpr
    intro st hst pr2 hpr2
    have hst2 : st = ⟨[], [], 0⟩ := by simpa using hst
    rw [hst2] at hpr2
    cases hpr2

/-- Whatever the mode, selected patterns are candidate patterns. -/
theorem selectionWithMode_pattern (mode : SelectionMode) (width : Nat)
    (cands : List Candidate) :
    ∀ pr ∈ selectionWithMode mode width cands, ∃ c ∈ cands, pr.1 = c.pattern := by
  intro pr hpr
  cases mode with
  | greedy =>
    obtain ⟨c, hc, he⟩ := selectGo_pattern _ [] pr hpr
    exact ⟨c, mem_sortBy densityBefore _ c hc, he⟩
  | optimal => exact selectOptimal_pattern cands pr hpr
  | beam => exact selectBeam_pattern width cands pr hpr
  | ilp => exact selectOptimal_pattern cands pr hpr

/-- Every token of every pattern a pass selects occurs in the pass's
input, whichever selection mode the configuration names. -/
theorem passSelection_pattern_subset (body : List Nat) (cfg : CoreConfig) :
    ∀ pr ∈ passSelection body cfg, ∀ t ∈ pr.1, t ∈ body := by
  intro pr hpr t ht
  obtain ⟨c, hc, he⟩ := selectionWithMode_pattern cfg.selectionMode cfg.beamWidth
    (discoverCandidates body cfg.minSubsequenceLength cfg.maxSubsequenceLength) pr hpr
  have hc2 : c ∈ allCandidates body cfg.minSubsequenceLength cfg.maxSubsequenceLength :=
    mem_sortBy candBefore _ c hc
  exact allCandidates_pattern_subset body _ _ c hc2 t (he ▸ ht)

/-! ## Round-trip -/

/-- A stream with no dictionary-start token decompresses to itself. -/
theorem decompressSpec_no_start (W : List Nat) (ds de : Nat)
    (h : ∀ t ∈ W, t ≠ ds) : decompressSpec W ds de = Except.ok W := by
  unfold decompressSpec
  rw [findTokenIdx_eq_none ds W h]

/-- Decompression of a stream that opens with the dictionary-start token
parses entries from position 1 and expands the returned body. -/
theorem decompressSpec_cons_start (ds de : Nat) (X : List Nat) :
    decompressSpec (ds :: X) ds de =
      (match parseEntriesF de (X.length + 1) X 1 with
       | Except.error e => Except.error e
       | Except.ok (entries, body) => expandSeq entries (entries.length + 1) body) := by
  unfold decompressSpec
  rw [findTokenIdx_cons_self]
  rfl

theorem withMetas_length (sel : List (List Nat × List Nat)) :
    ∀ (nm : Nat), (withMetas nm sel).length = sel.length := by
  induction sel with
  | nil => intro nm; rfl
  | cons pr rest ih =>
    obtain ⟨p, ss⟩ := pr
    intro nm
    simp [withMetas, ih]

/-- The driver's loop invariant: a successful run of the remaining passes
preserves the three facts that every body token lies below the meta
watermark, every accumulated entry's key and definition tokens lie below
the watermark, and the body expands to the original input under the
accumulated dictionary — and keeps the watermark within the control-token
range. -/
theorem hierLoop_inv (cfg : CoreConfig) (T : List Nat) :
    ∀ (k : Nat) (body : List Nat) (nm : Nat) (entries : DictMap)
      (bodyF : List Nat) (entriesF : DictMap) (nmF : Nat),
      hierLoop cfg k body nm entries = Except.ok (bodyF, entriesF, nmF) →
      (∀ t ∈ body, t < nm) →
      (∀ e ∈ entries, e.1 < nm ∧ ∀ t ∈ e.2, t < nm) →
      expandSeq entries (entries.length + 1) body = Except.ok T →
      nm ≤ cfg.dictStartToken →
      nm ≤ cfg.dictEndToken →
      (∀ t ∈ bodyF, t < nmF) ∧
      (∀ e ∈ entriesF, e.1 < nmF ∧ ∀ t ∈ e.2, t < nmF) ∧
      expandSeq entriesF (entriesF.length + 1) bodyF = Except.ok T ∧
      nmF ≤ cfg.dictStartToken ∧
      nmF ≤ cfg.dictEndToken := by
  intro k
  induction k with
  | zero =>
    intro body nm entries bodyF entriesF nmF h hbody hentries hexp hds hde
    simp only [hierLoop, Except.ok.injEq, Prod.mk.injEq] at h
    obtain ⟨rfl, rfl, rfl⟩ := h
    exact ⟨hbody, hentries, hexp, hds, hde⟩
  | succ k ih =>
    intro body nm entries bodyF entriesF nmF h hbody hentries hexp hds hde
    simp only [hierLoop] at h
    by_cases hsel : passSelection body cfg = []
    · rw [if_pos hsel] at h
      simp only [Except.ok.injEq, Prod.mk.injEq] at h
      obtain ⟨rfl, rfl, rfl⟩ := h
      exact ⟨hbody, hentries, hexp, hds, hde⟩
    · rw [if_neg hsel] at h
      by_cases hcap : nm + (passSelection body cfg).length ≤ cfg.dictStartToken ∧
          nm + (passSelection body cfg).length ≤ cfg.dictEndToken
      · rw [if_pos hcap] at h
        refine ih _ _ _ bodyF entriesF nmF h ?_ ?_ ?_ hcap.1 hcap.2
        · -- new body tokens lie below the advanced watermark
          intro t ht
          rcases bodyGo_tokens _ body t ht with h1 | ⟨o, ho, heq⟩
          · have := hbody t h1
            omega
          · obtain ⟨s, hs⟩ := toGaps_mem _ 0 o ho
            have hpo := mem_sortBy _ _ _ hs
            obtain ⟨e, he2, hm2, _⟩ :=
              planOccs_mem (withMetas nm (passSelection body cfg)) (s, o.2.1, o.2.2) hpo
            simp only at hm2
            have hkb := withMetas_key_bound (passSelection body cfg) nm e he2
            rw [heq, hm2]
            exact hkb.2
        · -- accumulated entries stay below the advanced watermark
          intro e he
          rcases List.mem_append.mp he with h1 | h2
          · obtain ⟨hk, htk⟩ := hentries e h1
            refine ⟨by omega, fun t ht => ?_⟩
            have := htk t ht
            omega
          · obtain ⟨e2, he2, heq⟩ := List.mem_map.mp h2
            have hkb := withMetas_key_bound (passSelection body cfg) nm e2 he2
            obtain ⟨pr, hpr, hpp⟩ := withMetas_pattern (passSelection body cfg) nm e2 he2
            constructor
            · rw [← heq]
              exact hkb.2
            · intro t ht
              rw [← heq] at ht
              have htb : t ∈ body := by
                apply passSelection_pattern_subset body cfg pr hpr t
                rw [← hpp]
                exact ht
              have := hbody t htb
              omega
        · -- the emitted body still expands to the original input
          have hN : ∀ e ∈ dictEntriesOf (withMetas nm (passSelection body cfg)),
              nm ≤ e.1 := by
            intro e he
            obtain ⟨e2, he2, heq⟩ := List.mem_map.mp he
            have hkb := withMetas_key_bound (passSelection body cfg) nm e2 he2
            rw [← heq]
            exact hkb.1
          have hstep1 : expandSeq
              (entries ++ dictEntriesOf (withMetas nm (passSelection body cfg)))
              (entries.length + 1) body = Except.ok T := by
            rw [expandSeq_extend entries _ nm (entries.length + 1) hentries hN body hbody]
            exact hexp
          have hocc : ∀ o ∈ toGaps 0
              (sortByStart (planOccs (withMetas nm (passSelection body cfg)))),
              lookupDict
                (entries ++ dictEntriesOf (withMetas nm (passSelection body cfg)))
                o.2.1 = some o.2.2 := by
            intro o ho
            obtain ⟨s, hs⟩ := toGaps_mem _ 0 o ho
            have hpo := mem_sortBy _ _ _ hs
            obtain ⟨e, he2, hm2, hp2⟩ :=
              planOccs_mem (withMetas nm (passSelection body cfg)) (s, o.2.1, o.2.2) hpo
            simp only at hm2 hp2
            have hkb := withMetas_key_bound (passSelection body cfg) nm e he2
            rw [hm2, hp2, lookupDict_append,
              lookupDict_none_of_lt entries nm e.1
                (fun e3 he3 => (hentries e3 he3).1) hkb.1]
            exact withMetas_lookup (passSelection body cfg) nm e he2
          have hstep2 := expandSeq_bodyGo_layer
            (entries ++ dictEntriesOf (withMetas nm (passSelection body cfg)))
            (toGaps 0 (sortByStart (planOccs (withMetas nm (passSelection body cfg)))))
            body T (entries.length + 1) hocc hstep1
          have hlen : (dictEntriesOf (withMetas nm (passSelection body cfg))).length =
              (passSelection body cfg).length := by
            unfold dictEntriesOf
            rw [List.length_map, withMetas_length]
          have hge : 1 ≤ (passSelection body cfg).length := by
            cases hps : passSelection body cfg with
            | nil => exact absurd hps hsel
            | cons a l => simp
          have hdep : (entries ++
              dictEntriesOf (withMetas nm (passSelection body cfg))).length + 1 =
              (entries.length + 1 + 1) + ((passSelection body cfg).length - 1) := by
            rw [List.length_append, hlen]
            omega
          rw [hdep]
          exact expandSeq_mono_le _ _ _ _ _ hstep2
      · rw [if_neg hcap] at h
        exact Except.noConfusion h

/-- Decompressing the assembled output of a successful run of the driver
recovers the original input: with no entries the stream is the input and
contains no control token; otherwise the wire dictionary parses back to
the accumulated entries and the final body expands through every layer. -/
theorem decompress_output (T : List Nat) (cfg : CoreConfig)
    (bodyF : List Nat) (entriesF : DictMap) (nmF : Nat)
    (hb : ∀ t ∈ bodyF, t < nmF)
    (he : ∀ e ∈ entriesF, e.1 < nmF ∧ ∀ t ∈ e.2, t < nmF)
    (hexp : expandSeq entriesF (entriesF.length + 1) bodyF = Except.ok T)
    (hds : nmF ≤ cfg.dictStartToken)
    (hde : nmF ≤ cfg.dictEndToken) :
    decompressSpec (compressOutput T cfg bodyF entriesF).serializedTokens
      cfg.dictStartToken cfg.dictEndToken = Except.ok T := by
  by_cases hent : entriesF = []
  · subst hent
    have h0 : expandSeq ([] : DictMap) (([] : DictMap).length + 1) bodyF =
        Except.ok bodyF := expandSeq_none [] _ bodyF (fun t _ => rfl)
    rw [hexp] at h0
    injection h0 with hTb
    unfold compressOutput
    rw [if_pos rfl]
    show decompressSpec T cfg.dictStartToken cfg.dictEndToken = Except.ok T
    apply decompressSpec_no_start
    intro t ht
    rw [hTb] at ht
    have := hb t ht
    omega
  · unfold compressOutput
    rw [if_neg hent]
    show decompressSpec
      ((cfg.dictStartToken :: (entriesFlat entriesF ++ [cfg.dictEndToken])) ++ bodyF)
      cfg.dictStartToken cfg.dictEndToken = Except.ok T
    have hser : (cfg.dictStartToken ::
        (entriesFlat entriesF ++ [cfg.dictEndToken])) ++ bodyF =
        cfg.dictStartToken ::
          (entriesFlat entriesF ++ cfg.dictEndToken :: bodyF) := by
      simp [List.append_assoc]
    rw [hser, decompressSpec_cons_start]
    have hm : ∀ e ∈ entriesF, e.1 ≠ cfg.dictEndToken := by
      intro e he2 hcon
      have := (he e he2).1
      omega
    have hd : ∀ e ∈ entriesF, ∀ t ∈ e.2, t ≠ cfg.dictEndToken := by
      intro e he2 t ht hcon
      have := (he e he2).2 t ht
      omega
    have hfuel : entriesF.length <
        (entriesFlat entriesF ++ cfg.dictEndToken :: bodyF).length + 1 := by
      have h1 := length_le_entriesFlat entriesF
      simp only [List.length_append, List.length_cons]
      omega
    rw [parseEntriesF_wire cfg.dictEndToken entriesF bodyF _ 1 hfuel hm hd]
    exact hexp

/-- C1: decompressing the serialized token stream produced by a
successful compression yields the input token-for-token, for every input
and every core configuration — every selection mode, beam width,
hierarchical depth, and verify setting (compression fails, by design,
exactly on inputs or configurations that violate the token-range
preconditions of spec section 7, and then produces no stream). -/
theorem C1_compress_roundtrip (T : List Nat) (cfg : CoreConfig) (R : CoreResult)
    (h : compressCore T cfg = Except.ok R) :
    decompressSpec R.serializedTokens cfg.dictStartToken cfg.dictEndToken =
      Except.ok T := by
  unfold compressCore at h
  by_cases hT : ∀ t ∈ T, t < cfg.nextMetaToken
  · rw [if_pos hT] at h
    by_cases hsane : cfg.nextMetaToken ≤ cfg.dictStartToken ∧
        cfg.nextMetaToken ≤ cfg.dictEndToken
    · rw [if_pos hsane] at h
      cases hloop : hierLoop cfg (hierPasses cfg) T cfg.nextMetaToken [] with
      | error e =>
        rw [hloop] at h
        exact Except.noConfusion h
      | ok res =>
        obtain ⟨bodyF, entriesF, nmF⟩ := res
        rw [hloop] at h
        obtain ⟨hb, he, hexp, hds2, hde2⟩ :=
          hierLoop_inv cfg T (hierPasses cfg) T cfg.nextMetaToken []
            bodyF entriesF nmF hloop hT
            (fun e he2 => absurd he2 (List.not_mem_nil e))
            (expandSeq_none [] _ T (fun t _ => rfl)) hsane.1 hsane.2
        have hround := decompress_output T cfg bodyF entriesF nmF hb he hexp hds2 hde2
        have h2 : (if cfg.verify = true then
            (if decompressSpec (compressOutput T cfg bodyF entriesF).serializedTokens
                cfg.dictStartToken cfg.dictEndToken = Except.ok T then
              Except.ok (compressOutput T cfg bodyF entriesF)
            else Except.error CompressError.verificationFailure)
          else Except.ok (compressOutput T cfg bodyF entriesF)) = Except.ok R := h
        by_cases hv : cfg.verify = true
        · rw [if_pos hv, if_pos hround] at h2
          injection h2 with h3
          rw [← h3]
          exact hround
        · rw [if_neg hv] at h2
          injection h2 with h3
          rw [← h3]
          exact hround
    · rw [if_neg hsane] at h
      exact Except.noConfusion h
  · rw [if_neg hT] at h
    exact Except.noConfusion h

/-- C1 witness: the round-trip theorem applied to the spec's first
concrete scenario, input [1,2,3,1,2,3,1,2,3] under the default
configuration; its compression succeeds and decompression returns the
input. -/
theorem C1_compress_roundtrip_witness :
    ∃ R, compressCore [1, 2, 3, 1, 2, 3, 1, 2, 3] defaultCoreConfig = Except.ok R ∧
      decompressSpec R.serializedTokens defaultCoreConfig.dictStartToken
        defaultCoreConfig.dictEndToken = Except.ok [1, 2, 3, 1, 2, 3, 1, 2, 3] := by
  have hok : (compressCore [1, 2, 3, 1, 2, 3, 1, 2, 3] defaultCoreConfig).isOk = true := by
    decide
  cases h : compressCore [1, 2, 3, 1, 2, 3, 1, 2, 3] defaultCoreConfig with
  | error e =>
    rw [h] at hok
    simp [Except.isOk, Except.toBool] at hok
  | ok R =>
    exact ⟨R, rfl, C1_compress_roundtrip _ defaultCoreConfig R h⟩

/-! ## C2: streams with no dictionary-start token -/

/-- C2: a token sequence in which the dictionary-start control token does
not occur decompresses to itself unchanged, and dictionary extraction on
it yields the empty map. -/
theorem C2_plain_stream (W : List Nat)
    (h : DEFAULT_CONFIG.dictStartToken ∉ W) :
    decompressSpec W DEFAULT_CONFIG.dictStartToken DEFAULT_CONFIG.dictEndToken =
      Except.ok W ∧
    extractDictionary W none = [] := by
  have hne : ∀ t ∈ W, t ≠ DEFAULT_CONFIG.dictStartToken := by
    intro t ht heq
    exact h (heq ▸ ht)
  constructor
  · exact decompressSpec_no_start W _ _ hne
  · rw [extractDictionary_none, findTokenIdx_eq_none _ _ hne]

/-- C2 witness: the theorem applied at the ordinary-token sequence
[1, 2, 3, 4, 5]. -/
theorem C2_plain_stream_witness :
    decompressSpec [1, 2, 3, 4, 5] DEFAULT_CONFIG.dictStartToken
      DEFAULT_CONFIG.dictEndToken = Except.ok [1, 2, 3, 4, 5] ∧
    extractDictionary [1, 2, 3, 4, 5] none = [] :=
  C2_plain_stream [1, 2, 3, 4, 5] (by decide)

end Delta
